import Mathlib

/-!
Verification of the Sort-Comparer program (src/sortcomparer.cc, src/sortcomparer.h).

The C++ program is embedded shallowly: `std::vector<int>` becomes `List Int`
(machine-int overflow is never relevant to the properties checked here, so
elements are unbounded integers), index-based loops become recursive
functions on the indices, and the few `while` loops become well-founded
recursions on the measures that make the C++ loops terminate.
Indexing a vector is embedded as `List.getD · · 0`; every place the program
indexes, the index is in range, so the default is never observable.
-/

/-- `v[i]` for a Nat index, as used by the sorting routines. -/
def vgetN (v : List Int) (i : Nat) : Int := v.getD i 0

/-- `std::swap(v[i], v[j])`. -/
def vswapN (v : List Int) (i j : Nat) : List Int :=
  (v.set i (vgetN v j)).set j (vgetN v i)

/-- `v[i]` for a C++ `int` (modelled as `Int`) index. -/
def vget (v : List Int) (i : Int) : Int := vgetN v i.toNat

/-- `std::swap(v[i], v[j])` for `int` indices. -/
def vswap (v : List Int) (i j : Int) : List Int := vswapN v i.toNat j.toNat

theorem vgetN_eq_getElem (v : List Int) (i : Nat) (h : i < v.length) :
    vgetN v i = v.get ⟨i, h⟩ := by
  induction v generalizing i with
  | nil => simp at h
  | cons a t ih =>
    cases i with
    | zero => rfl
    | succ n => exact ih n (by simpa using h)

theorem vgetN_default (v : List Int) (i : Nat) (h : v.length ≤ i) :
    vgetN v i = 0 := by
  induction v generalizing i with
  | nil => cases i <;> rfl
  | cons a t ih =>
    cases i with
    | zero => simp at h
    | succ n => exact ih n (by simpa using h)

theorem vgetN_set (v : List Int) (i j : Nat) (x : Int) (hi : i < v.length) :
    vgetN (v.set i x) j = if j = i then x else vgetN v j := by
  induction v generalizing i j with
  | nil => simp at hi
  | cons a t ih =>
    cases i with
    | zero =>
      cases j with
      | zero => rfl
      | succ m => simp [vgetN, List.set]
    | succ n =>
      cases j with
      | zero => simp [vgetN, List.set]
      | succ m =>
        have := ih n m (by simpa using hi)
        simpa [vgetN, List.set, Nat.succ_inj] using this

theorem length_vswapN (v : List Int) (i j : Nat) :
    (vswapN v i j).length = v.length := by
  simp [vswapN]

theorem vgetN_vswapN (v : List Int) (i j k : Nat)
    (hi : i < v.length) (hj : j < v.length) :
    vgetN (vswapN v i j) k =
      if k = j then vgetN v i else if k = i then vgetN v j else vgetN v k := by
  unfold vswapN
  rw [vgetN_set _ j k _ (by simpa using hj), vgetN_set _ i k _ hi]

theorem count_set (v : List Int) (i : Nat) (x a : Int) (hi : i < v.length) :
    (v.set i x).count a + (if vgetN v i = a then 1 else 0) =
      v.count a + (if x = a then 1 else 0) := by
  induction v generalizing i with
  | nil => simp at hi
  | cons b t ih =>
    cases i with
    | zero =>
      show (x :: t).count a + (if vgetN (b :: t) 0 = a then 1 else 0) = _
      have hb0 : vgetN (b :: t) 0 = b := rfl
      simp only [List.count_cons, hb0, beq_iff_eq]
      split_ifs <;> omega
    | succ n =>
      have hn : n < t.length := by simpa using hi
      have ht := ih n hn
      show (b :: t.set n x).count a + (if vgetN (b :: t) (n+1) = a then 1 else 0) = _
      have hv : vgetN (b :: t) (n+1) = vgetN t n := rfl
      simp only [List.count_cons, hv, beq_iff_eq] at *
      split_ifs at * <;> omega

theorem count_vswapN (v : List Int) (i j : Nat) (a : Int)
    (hi : i < v.length) (hj : j < v.length) :
    (vswapN v i j).count a = v.count a := by
  unfold vswapN
  have h1 := count_set v i (vgetN v j) a hi
  have h2 := count_set (v.set i (vgetN v j)) j (vgetN v i) a (by simpa using hj)
  rw [vgetN_set v i j _ hi] at h2
  by_cases hij : j = i
  · subst hij
    simp only [if_pos rfl] at h2
    by_cases h : vgetN v j = a <;> simp [h] at * <;> omega
  · rw [if_neg hij] at h2
    by_cases h3 : vgetN v i = a <;> by_cases h4 : vgetN v j = a <;>
      simp [h3, h4] at * <;> omega

theorem vswapN_perm (v : List Int) (i j : Nat)
    (hi : i < v.length) (hj : j < v.length) : (vswapN v i j).Perm v := by
  rw [List.perm_iff_count]
  intro a
  exact count_vswapN v i j a hi hj

theorem length_vswap (v : List Int) (i j : Int) : (vswap v i j).length = v.length :=
  length_vswapN v _ _

theorem vget_vswap (v : List Int) (i j k : Int)
    (hi0 : 0 ≤ i) (hi : i < v.length) (hj0 : 0 ≤ j) (hj : j < v.length) :
    vget (vswap v i j) k =
      if k.toNat = j.toNat then vget v i else if k.toNat = i.toNat then vget v j
      else vget v k := by
  unfold vget vswap
  exact vgetN_vswapN v i.toNat j.toNat k.toNat (by omega) (by omega)

theorem vswap_perm (v : List Int) (i j : Int)
    (hi0 : 0 ≤ i) (hi : i < v.length) (hj0 : 0 ≤ j) (hj : j < v.length) :
    (vswap v i j).Perm v :=
  vswapN_perm v _ _ (by omega) (by omega)

/-- Monotone-by-index description of sortedness of the first `k` positions. -/
def SortedBelow (v : List Int) (k : Nat) : Prop :=
  ∀ a b : Nat, a ≤ b → b < k → vgetN v a ≤ vgetN v b

theorem sortedBelow_of_le {v : List Int} {k k' : Nat} (h : SortedBelow v k)
    (hk : k' ≤ k) : SortedBelow v k' :=
  fun a b hab hb => h a b hab (by omega)

theorem sorted_of_sortedBelow {v : List Int} (h : SortedBelow v v.length) :
    v.Sorted (· ≤ ·) := by
  rw [List.Sorted, List.pairwise_iff_getElem]
  intro a b ha hb hab
  have := h a b (by omega) hb
  rwa [vgetN_eq_getElem v a ha, vgetN_eq_getElem v b hb] at this

theorem sorted_of_short (v : List Int) (h : v.length ≤ 1) : v.Sorted (· ≤ ·) := by
  match v with
  | [] => exact List.sorted_nil
  | [a] => exact List.sorted_singleton a
  | a :: b :: t => simp at h

/-! ## Insertion sort (src/sortcomparer.cc, `insertion_sort`, lines 228-242)

The inner `while (j > 0 && v[j-1] > v[j])` loop becomes `insInner`
(structural recursion on `j`); the outer `for (i = 1; i < n; ++i)` loop
becomes `insOuter` (the vector's length is invariant, so `i < n` is
`i < v.length`). -/

def insInner (v : List Int) (j : Nat) : List Int :=
  match j with
  | 0 => v
  | j' + 1 =>
    if vgetN v j' > vgetN v (j' + 1) then insInner (vswapN v j' (j' + 1)) j' else v

theorem length_insInner (v : List Int) (j : Nat) :
    (insInner v j).length = v.length := by
  induction j generalizing v with
  | zero => rfl
  | succ j' ih =>
    rw [insInner]
    split
    · rw [ih, length_vswapN]
    · rfl

def insOuter (v : List Int) (i : Nat) : List Int :=
  if h : i < v.length then insOuter (insInner v i) (i + 1) else v
termination_by v.length - i
decreasing_by
  rw [length_insInner]
  omega

def insertion_sort (v : List Int) : List Int := insOuter v 1

theorem insInner_perm (v : List Int) (j : Nat) (hj : j < v.length) :
    (insInner v j).Perm v := by
  induction j generalizing v with
  | zero => exact List.Perm.refl v
  | succ j' ih =>
    rw [insInner]
    split
    · refine List.Perm.trans (ih _ ?_) (vswapN_perm v j' (j' + 1) (by omega) hj)
      rw [length_vswapN]
      omega
    · exact List.Perm.refl v

theorem insInner_frame (v : List Int) (j : Nat) (hj : j < v.length) :
    ∀ m, j < m → vgetN (insInner v j) m = vgetN v m := by
  induction j generalizing v with
  | zero => intro m _; rfl
  | succ j' ih =>
    intro m hm
    rw [insInner]
    split
    · rw [ih _ (by rw [length_vswapN]; omega) m (by omega)]
      rw [vgetN_vswapN v j' (j' + 1) m (by omega) hj]
      have h1 : m ≠ j' + 1 := by omega
      have h2 : m ≠ j' := by omega
      simp [h1, h2]
    · rfl

theorem insInner_spec (i : Nat) : ∀ (j : Nat) (v : List Int), j ≤ i → i < v.length →
    (∀ a b : Nat, a ≤ b → b ≤ i → a ≠ j → b ≠ j → vgetN v a ≤ vgetN v b) →
    (∀ b : Nat, j < b → b ≤ i → vgetN v j ≤ vgetN v b) →
    SortedBelow (insInner v j) (i + 1) := by
  intro j
  induction j with
  | zero =>
    intro v _ _ h1 h2 a b hab hb
    show vgetN v a ≤ vgetN v b
    rcases Nat.eq_zero_or_pos b with rfl | hbpos
    · have : a = 0 := by omega
      subst this
      exact le_refl _
    · rcases Nat.eq_zero_or_pos a with rfl | hapos
      · exact h2 b hbpos (by omega)
      · exact h1 a b hab (by omega) (by omega) (by omega)
  | succ j' ih =>
    intro v hj hi h1 h2
    rw [insInner]
    split
    · rename_i hlt
      have hj'1 : j' + 1 < v.length := by omega
      have hget : ∀ m, vgetN (vswapN v j' (j' + 1)) m =
          if m = j' + 1 then vgetN v j' else if m = j' then vgetN v (j' + 1)
          else vgetN v m := fun m => vgetN_vswapN v j' (j' + 1) m (by omega) hj'1
      refine ih (vswapN v j' (j' + 1)) (by omega) (by rw [length_vswapN]; omega) ?_ ?_
      · intro a b hab hb ha' hb'
        rw [hget a, hget b]
        rcases eq_or_ne b (j' + 1) with rfl | hbne
        · rcases eq_or_ne a (j' + 1) with rfl | hane
          · simp
          · have ha2 : a ≤ j' := by omega
            have := h1 a j' (by omega) (by omega) (by omega) (by omega)
            simp only [if_neg hane, if_neg ha', if_pos rfl]
            exact this
        · rcases eq_or_ne a (j' + 1) with rfl | hane
          · have hbgt : j' + 1 ≤ b := hab
            have := h1 j' b (by omega) hb (by omega) hbne
            simp [hbne, hb']
            exact this
          · simp [hane, ha', hbne, hb']
            exact h1 a b hab hb hane hbne
      · intro b hbgt hble
        rw [hget j', hget b]
        have hne : j' ≠ j' + 1 := by omega
        rcases eq_or_ne b (j' + 1) with rfl | hbne
        · simp [hne]
          omega
        · have hbgt' : j' + 1 < b := by omega
          simp [hne, hbne, Nat.ne_of_gt hbgt]
          exact h2 b hbgt' hble
    · rename_i hnlt
      push_neg at hnlt
      intro a b hab hb
      show vgetN v a ≤ vgetN v b
      have hb' : b ≤ i := by omega
      rcases eq_or_ne b (j' + 1) with rfl | hbne
      · rcases eq_or_ne a (j' + 1) with rfl | hane
        · exact le_refl _
        · rcases eq_or_ne a j' with rfl | hane'
          · exact hnlt
          · have : vgetN v a ≤ vgetN v j' :=
              h1 a j' (by omega) (by omega) hane (by omega)
            exact le_trans this hnlt
      · rcases eq_or_ne a (j' + 1) with rfl | hane
        · exact h2 b (by omega) hb'
        · exact h1 a b hab hb' hane hbne

theorem insOuter_spec (v : List Int) (i : Nat) :
    1 ≤ i → SortedBelow v i →
    (insOuter v i).length = v.length ∧ (insOuter v i).Perm v ∧
      (insOuter v i).Sorted (· ≤ ·) := by
  induction v, i using insOuter.induct with
  | case1 v i h ih =>
    intro hi hs
    rw [insOuter, dif_pos h]
    have hsorted : SortedBelow (insInner v i) (i + 1) := by
      refine insInner_spec i i v (le_refl i) h ?_ ?_
      · intro a b hab hb _ hbne
        exact hs a b hab (by omega)
      · intro b hb1 hb2
        omega
    obtain ⟨hl, hp, hsd⟩ := ih (by omega) hsorted
    refine ⟨by rw [hl, length_insInner], ?_, hsd⟩
    exact List.Perm.trans hp (insInner_perm v i h)
  | case2 v i h =>
    intro hi hs
    rw [insOuter, dif_neg h]
    refine ⟨rfl, List.Perm.refl v, ?_⟩
    exact sorted_of_sortedBelow (sortedBelow_of_le hs (by omega))

theorem sortedBelow_one (v : List Int) : SortedBelow v 1 := by
  intro a b hab hb
  have : a = 0 ∧ b = 0 := by omega
  rcases this with ⟨rfl, rfl⟩
  exact le_refl _

theorem insertion_sort_perm (v : List Int) : (insertion_sort v).Perm v :=
  (insOuter_spec v 1 (le_refl 1) (sortedBelow_one v)).2.1

theorem insertion_sort_sorted (v : List Int) : (insertion_sort v).Sorted (· ≤ ·) :=
  (insOuter_spec v 1 (le_refl 1) (sortedBelow_one v)).2.2

theorem length_insertion_sort (v : List Int) : (insertion_sort v).length = v.length :=
  (insOuter_spec v 1 (le_refl 1) (sortedBelow_one v)).1

/-! ## Shell sort (src/sortcomparer.cc, `shell_sort`, lines 460-472)

`for (gap = n/2; gap > 0; gap /= 2)` becomes `shGaps`;
`for (i = gap; i < n; ++i)` becomes `shPassAux`; the inner
`for (j = i; j >= gap && v[j-gap] > v[j]; j -= gap)` loop becomes `shInner`.
When `gap = 0` the source's guard `v[j-gap] > v[j]` is `v[j] > v[j]`, which
is false, and the same comparison makes the Lean recursion terminate. -/

def shInner (v : List Int) (gap j : Nat) : List Int :=
  if h : gap ≤ j ∧ vgetN v (j - gap) > vgetN v j then
    shInner (vswapN v (j - gap) j) gap (j - gap)
  else v
termination_by j
decreasing_by
  rcases h with ⟨h1, h2⟩
  rcases Nat.eq_zero_or_pos gap with rfl | hg
  · simp at h2
  · omega

theorem length_shInner (v : List Int) (gap j : Nat) :
    (shInner v gap j).length = v.length := by
  induction v, gap, j using shInner.induct with
  | case1 v gap j h ih => rw [shInner, dif_pos h, ih, length_vswapN]
  | case2 v gap j h => rw [shInner, dif_neg h]

theorem shInner_perm (v : List Int) (gap j : Nat) (hj : j < v.length) :
    (shInner v gap j).Perm v := by
  induction v, gap, j using shInner.induct with
  | case1 v gap j h ih =>
    rw [shInner, dif_pos h]
    refine List.Perm.trans (ih (by rw [length_vswapN]; omega)) ?_
    exact vswapN_perm v (j - gap) j (by omega) hj
  | case2 v gap j h => rw [shInner, dif_neg h]

def shPassAux (v : List Int) (gap i : Nat) : List Int :=
  if h : i < v.length then shPassAux (shInner v gap i) gap (i + 1) else v
termination_by v.length - i
decreasing_by
  rw [length_shInner]
  omega

theorem length_shPassAux (v : List Int) (gap i : Nat) :
    (shPassAux v gap i).length = v.length := by
  induction v, gap, i using shPassAux.induct with
  | case1 v gap i h ih => rw [shPassAux, dif_pos h, ih, length_shInner]
  | case2 v gap i h => rw [shPassAux, dif_neg h]

theorem shPassAux_perm (v : List Int) (gap i : Nat) :
    (shPassAux v gap i).Perm v := by
  induction v, gap, i using shPassAux.induct with
  | case1 v gap i h ih =>
    rw [shPassAux, dif_pos h]
    exact List.Perm.trans ih (shInner_perm v gap i h)
  | case2 v gap i h => rw [shPassAux, dif_neg h]

def shGaps (v : List Int) (gap : Nat) : List Int :=
  if h : gap > 0 then shGaps (shPassAux v gap gap) (gap / 2) else v
termination_by gap
decreasing_by omega

def shell_sort (v : List Int) : List Int := shGaps v (v.length / 2)

theorem length_shGaps (v : List Int) (gap : Nat) :
    (shGaps v gap).length = v.length := by
  induction v, gap using shGaps.induct with
  | case1 v gap h ih => rw [shGaps, dif_pos h, ih, length_shPassAux]
  | case2 v gap h => rw [shGaps, dif_neg h]

theorem shGaps_perm (v : List Int) (gap : Nat) : (shGaps v gap).Perm v := by
  induction v, gap using shGaps.induct with
  | case1 v gap h ih =>
    rw [shGaps, dif_pos h]
    exact List.Perm.trans ih (shPassAux_perm v gap gap)
  | case2 v gap h => rw [shGaps, dif_neg h]

theorem shell_sort_perm (v : List Int) : (shell_sort v).Perm v :=
  shGaps_perm v _

theorem shInner_one (v : List Int) (j : Nat) : shInner v 1 j = insInner v j := by
  induction j generalizing v with
  | zero =>
    rw [shInner, insInner, dif_neg]
    intro h
    omega
  | succ j' ih =>
    rw [shInner, insInner]
    by_cases h : vgetN v j' > vgetN v (j' + 1)
    · have hc : 1 ≤ j' + 1 ∧ vgetN v (j' + 1 - 1) > vgetN v (j' + 1) := by
        constructor
        · omega
        · simpa using h
      rw [dif_pos hc, if_pos h]
      have : j' + 1 - 1 = j' := by omega
      rw [this]
      exact ih _
    · rw [if_neg h, dif_neg]
      intro hc
      apply h
      have : j' + 1 - 1 = j' := by omega
      rw [this] at hc
      exact hc.2

theorem shPassAux_one (v : List Int) (i : Nat) : shPassAux v 1 i = insOuter v i := by
  induction v, i using insOuter.induct with
  | case1 v i h ih =>
    rw [shPassAux, insOuter, dif_pos h, dif_pos h, shInner_one, ih]
  | case2 v i h =>
    rw [shPassAux, insOuter, dif_neg h, dif_neg h]

theorem shGaps_sorted (gap : Nat) : ∀ v : List Int, 1 ≤ gap →
    (shGaps v gap).Sorted (· ≤ ·) := by
  induction gap using Nat.strong_induction_on with
  | _ gap ih =>
    intro v hgap
    rw [shGaps, dif_pos (by omega)]
    rcases Nat.lt_or_ge gap 2 with h2 | h2
    · have hg1 : gap = 1 := by omega
      subst hg1
      rw [shGaps, dif_neg (by omega)]
      rw [shPassAux_one]
      exact insertion_sort_sorted v
    · exact ih (gap / 2) (by omega) _ (by omega)

theorem shell_sort_sorted (v : List Int) : (shell_sort v).Sorted (· ≤ ·) := by
  rcases Nat.lt_or_ge v.length 2 with h | h
  · unfold shell_sort
    have : v.length / 2 = 0 := by omega
    rw [this, shGaps, dif_neg (by omega)]
    exact sorted_of_short v (by omega)
  · exact shGaps_sorted (v.length / 2) v (by omega)

theorem length_shell_sort (v : List Int) : (shell_sort v).length = v.length :=
  length_shGaps v _

/-! ## Selection sort (src/sortcomparer.cc, `selection_sort`, lines 247-264)

The inner `for (j = i+1; j < n; ++j)` scan for the index of the minimum
becomes `selMin`; the outer `for (i = 0; i < n - 1; ++i)` loop becomes
`selOuter` (for C++ `int` arithmetic, `i < n - 1` is `i + 1 < n`). -/

def selMin (v : List Int) (j mn : Nat) : Nat :=
  if h : j < v.length then
    selMin v (j + 1) (if vgetN v j < vgetN v mn then j else mn)
  else mn
termination_by v.length - j

def selOuter (v : List Int) (i : Nat) : List Int :=
  if h : i + 1 < v.length then
    selOuter (if selMin v (i + 1) i ≠ i then vswapN v i (selMin v (i + 1) i) else v) (i + 1)
  else v
termination_by v.length - i
decreasing_by
  split
  · rw [length_vswapN]
    omega
  · omega

def selection_sort (v : List Int) : List Int := selOuter v 0

theorem selMin_spec (v : List Int) (j mn : Nat) :
    mn < v.length →
    (selMin v j mn = mn ∨ (j ≤ selMin v j mn ∧ selMin v j mn < v.length)) ∧
      vgetN v (selMin v j mn) ≤ vgetN v mn ∧
      (∀ k, j ≤ k → k < v.length → vgetN v (selMin v j mn) ≤ vgetN v k) := by
  induction j, mn using selMin.induct v with
  | case1 j mn h ih =>
    intro hmn
    rw [selMin, dif_pos h]
    simp only [dite_eq_ite] at ih
    by_cases hc : vgetN v j < vgetN v mn
    · rw [if_pos hc] at ih ⊢
      obtain ⟨hr, hle, hall⟩ := ih h
      refine ⟨?_, ?_, ?_⟩
      · rcases hr with hr | hr
        · right
          rw [hr]
          omega
        · right
          omega
      · exact le_trans hle (le_of_lt hc)
      · intro k hk hk'
        rcases Nat.eq_or_lt_of_le hk with rfl | hklt
        · exact hle
        · exact hall k (by omega) hk'
    · rw [if_neg hc] at ih ⊢
      obtain ⟨hr, hle, hall⟩ := ih hmn
      refine ⟨?_, hle, ?_⟩
      · rcases hr with hr | hr
        · left; exact hr
        · right; omega
      · intro k hk hk'
        rcases Nat.eq_or_lt_of_le hk with rfl | hklt
        · exact le_trans hle (not_lt.mp hc)
        · exact hall k (by omega) hk'
  | case2 j mn h =>
    intro hmn
    rw [selMin, dif_neg h]
    exact ⟨Or.inl rfl, le_refl _, fun k hk hk' => absurd (by omega : j < v.length) h⟩

theorem selOuter_spec (v : List Int) (i : Nat) :
    SortedBelow v i →
    (∀ a b : Nat, a < i → i ≤ b → b < v.length → vgetN v a ≤ vgetN v b) →
    (selOuter v i).length = v.length ∧ (selOuter v i).Perm v ∧
      (selOuter v i).Sorted (· ≤ ·) := by
  induction v, i using selOuter.induct with
  | case1 v i h ih =>
    intro hpfx hpart
    rw [selOuter, dif_pos h]
    have hi : i < v.length := by omega
    obtain ⟨mn, hm⟩ : ∃ m, selMin v (i + 1) i = m := ⟨_, rfl⟩
    rw [hm] at ih ⊢
    simp only [dite_eq_ite] at ih
    obtain ⟨hr, hle, hall⟩ := selMin_spec v (i + 1) i hi
    rw [hm] at hr hle hall
    have hmnlo : i ≤ mn := by rcases hr with hr | hr <;> omega
    have hmnhi : mn < v.length := by rcases hr with hr | hr <;> omega
    have hminall : ∀ k, i ≤ k → k < v.length → vgetN v mn ≤ vgetN v k := by
      intro k hk hk'
      rcases Nat.eq_or_lt_of_le hk with rfl | hklt
      · exact hle
      · exact hall k (by omega) hk'
    have hwlen : (if mn ≠ i then vswapN v i mn else v).length = v.length := by
      split
      · exact length_vswapN v i mn
      · rfl
    have hwget : ∀ m, vgetN (if mn ≠ i then vswapN v i mn else v) m =
        if m = mn then vgetN v i else if m = i then vgetN v mn else vgetN v m := by
      intro m
      by_cases hmi : mn = i
      · rw [if_neg (by simp [hmi])]
        subst hmi
        by_cases hmm : m = mn
        · rw [if_pos hmm, hmm]
        · rw [if_neg hmm, if_neg hmm]
      · rw [if_pos hmi, vgetN_vswapN v i mn m hi hmnhi]
    have hwperm : (if mn ≠ i then vswapN v i mn else v).Perm v := by
      split
      · exact vswapN_perm v i mn hi hmnhi
      · exact List.Perm.refl v
    have hpfx' : SortedBelow (if mn ≠ i then vswapN v i mn else v) (i + 1) := by
      intro a b hab hb
      rw [hwget a, hwget b]
      split_ifs
      all_goals first
        | exact le_refl _
        | omega
        | exact hle
        | exact hpart a i (by omega) (le_refl i) hi
        | exact hpart a mn (by omega) (by omega) (by omega)
        | exact hpfx a b hab (by omega)
    have hpart' : ∀ a b : Nat, a < i + 1 → i + 1 ≤ b →
        b < (if mn ≠ i then vswapN v i mn else v).length →
        vgetN (if mn ≠ i then vswapN v i mn else v) a ≤
          vgetN (if mn ≠ i then vswapN v i mn else v) b := by
      intro a b ha hb hb'
      rw [hwlen] at hb'
      rw [hwget a, hwget b]
      split_ifs with h1 h2 h3 h4 h5 h6 h7 h8
      all_goals first
        | exact le_refl _
        | omega
        | exact hle
        | exact hminall b (by omega) hb'
        | exact hpart a i (by omega) (le_refl i) hi
        | exact hpart a b (by omega) (by omega) hb'
        | (rw [(by omega : i = mn)]; exact hminall b (by omega) hb')
    obtain ⟨hl, hp, hs⟩ := ih hpfx' hpart'
    refine ⟨by rw [hl, hwlen], List.Perm.trans hp hwperm, hs⟩
  | case2 v i h =>
    intro hpfx hpart
    rw [selOuter, dif_neg h]
    refine ⟨rfl, List.Perm.refl v, ?_⟩
    apply sorted_of_sortedBelow
    intro a b hab hb
    rcases Nat.eq_or_lt_of_le hab with rfl | halt
    · exact le_refl _
    · have hble : b ≤ i := by omega
      rcases Nat.eq_or_lt_of_le hble with rfl | hblt
      · exact hpart a b (by omega) (le_refl _) hb
      · exact hpfx a b hab (by omega)

theorem selection_sort_perm (v : List Int) : (selection_sort v).Perm v :=
  (selOuter_spec v 0 (fun a b _ hb => by omega) (fun a b ha _ _ => by omega)).2.1

theorem selection_sort_sorted (v : List Int) : (selection_sort v).Sorted (· ≤ ·) :=
  (selOuter_spec v 0 (fun a b _ hb => by omega) (fun a b ha _ _ => by omega)).2.2

theorem length_selection_sort (v : List Int) : (selection_sort v).length = v.length :=
  (selOuter_spec v 0 (fun a b _ hb => by omega) (fun a b ha _ _ => by omega)).1

/-! ## Bubble sort (src/sortcomparer.cc, `bubble_sort`, lines 269-288)

One `for (i = 1; i < n; ++i)` pass with the `swapped` flag becomes
`bubblePassAux`; the outer `while (swapped)` loop becomes `bubble_sort`,
which terminates because a pass that swapped strictly decreases the
number of inversions `inv`. -/

/-- Number of inversions (the `while (swapped)` loop's termination measure). -/
def inv : List Int → Nat
  | [] => 0
  | x :: xs => xs.countP (fun y => decide (y < x)) + inv xs

def bubblePassAux (v : List Int) (i : Nat) (sw : Bool) : List Int × Bool :=
  if h : i < v.length then
    if vgetN v (i - 1) > vgetN v i then
      bubblePassAux (vswapN v (i - 1) i) (i + 1) true
    else bubblePassAux v (i + 1) sw
  else (v, sw)
termination_by v.length - i
decreasing_by
  · rw [length_vswapN]
    omega
  · omega

theorem length_bubblePassAux (v : List Int) (i : Nat) (sw : Bool) :
    (bubblePassAux v i sw).1.length = v.length := by
  induction v, i, sw using bubblePassAux.induct with
  | case1 v i sw h hc ih => rw [bubblePassAux, dif_pos h, if_pos hc, ih, length_vswapN]
  | case2 v i sw h hc ih => rw [bubblePassAux, dif_pos h, if_neg hc, ih]
  | case3 v i sw h => rw [bubblePassAux, dif_neg h]

theorem bubblePassAux_perm (v : List Int) (i : Nat) (sw : Bool) :
    (bubblePassAux v i sw).1.Perm v := by
  induction v, i, sw using bubblePassAux.induct with
  | case1 v i sw h hc ih =>
    rw [bubblePassAux, dif_pos h, if_pos hc]
    exact List.Perm.trans ih (vswapN_perm v (i - 1) i (by omega) h)
  | case2 v i sw h hc ih => rw [bubblePassAux, dif_pos h, if_neg hc]; exact ih
  | case3 v i sw h => rw [bubblePassAux, dif_neg h]

theorem inv_adjacent_swap (i : Nat) : ∀ v : List Int, i + 1 < v.length →
    vgetN v i > vgetN v (i + 1) → inv (vswapN v i (i + 1)) + 1 = inv v := by
  induction i with
  | zero =>
    intro v hlen hgt
    match v, hlen with
    | a :: b :: t, _ =>
      have hab : b < a := hgt
      have hswap : vswapN (a :: b :: t) 0 1 = b :: a :: t := rfl
      rw [hswap]
      show (a :: t).countP (fun y => decide (y < b)) + (t.countP (fun y => decide (y < a)) + inv t) + 1 =
        (b :: t).countP (fun y => decide (y < a)) + (t.countP (fun y => decide (y < b)) + inv t)
      rw [List.countP_cons, List.countP_cons]
      have h1 : (decide (a < b) : Bool) = false := by simp; omega
      have h2 : (decide (b < a) : Bool) = true := by simp; omega
      rw [h1, h2]
      simp
      omega
  | succ i' ih =>
    intro v hlen hgt
    match v, hlen, hgt with
    | a :: t, hl, hgt =>
      have hlen' : i' + 1 < t.length := by
        simp at hl
        omega
      have hgt' : vgetN t i' > vgetN t (i' + 1) := hgt
      have hswap : vswapN (a :: t) (i' + 1) (i' + 2) = a :: vswapN t i' (i' + 1) := rfl
      rw [hswap]
      show (vswapN t i' (i' + 1)).countP (fun y => decide (y < a)) + inv (vswapN t i' (i' + 1)) + 1 =
        t.countP (fun y => decide (y < a)) + inv t
      rw [List.Perm.countP_eq _ (vswapN_perm t i' (i' + 1) (by omega) hlen')]
      have := ih t hlen' hgt'
      omega

theorem bubblePassAux_inv (v : List Int) (i : Nat) (sw : Bool) :
    inv (bubblePassAux v i sw).1 ≤ inv v ∧
      ((bubblePassAux v i sw).2 = sw ∨ inv (bubblePassAux v i sw).1 < inv v) := by
  induction v, i, sw using bubblePassAux.induct with
  | case1 v i sw h hc ih =>
    rw [bubblePassAux, dif_pos h, if_pos hc]
    have hi1 : 1 ≤ i := by
      by_contra hi0
      have hz : i = 0 := by omega
      rw [hz] at hc
      exact absurd hc (lt_irrefl _)
    have hswap : inv (vswapN v (i - 1) i) + 1 = inv v := by
      have := inv_adjacent_swap (i - 1) v (by omega) (by
        have : i - 1 + 1 = i := by omega
        rw [this]
        exact hc)
      have heq : i - 1 + 1 = i := by omega
      rw [heq] at this
      exact this
    obtain ⟨hle, _⟩ := ih
    constructor
    · omega
    · right
      omega
  | case2 v i sw h hc ih =>
    rw [bubblePassAux, dif_pos h, if_neg hc]
    exact ih
  | case3 v i sw h =>
    rw [bubblePassAux, dif_neg h]
    exact ⟨le_refl _, Or.inl rfl⟩

theorem bubblePassAux_noswap (v : List Int) (i : Nat) (sw : Bool) :
    (bubblePassAux v i sw).2 = false →
      sw = false ∧ (bubblePassAux v i sw).1 = v ∧
        (∀ k, i ≤ k → k < v.length → vgetN v (k - 1) ≤ vgetN v k) := by
  induction v, i, sw using bubblePassAux.induct with
  | case1 v i sw h hc ih =>
    rw [bubblePassAux, dif_pos h, if_pos hc]
    intro hfalse
    obtain ⟨habs, _, _⟩ := ih hfalse
    exact absurd habs (by simp)
  | case2 v i sw h hc ih =>
    rw [bubblePassAux, dif_pos h, if_neg hc]
    intro hfalse
    obtain ⟨hsw, heq, hall⟩ := ih hfalse
    refine ⟨hsw, heq, ?_⟩
    intro k hk hk'
    rcases Nat.eq_or_lt_of_le hk with rfl | hklt
    · exact not_lt.mp hc
    · exact hall k (by omega) hk'
  | case3 v i sw h =>
    rw [bubblePassAux, dif_neg h]
    intro hsw
    exact ⟨hsw, rfl, fun k hk hk' => absurd (by omega : i < v.length) h⟩

def bubble_sort (v : List Int) : List Int :=
  if h : (bubblePassAux v 1 false).2 then bubble_sort (bubblePassAux v 1 false).1
  else (bubblePassAux v 1 false).1
termination_by inv v
decreasing_by
  obtain ⟨hle, hor⟩ := bubblePassAux_inv v 1 false
  rcases hor with heq | hlt
  · rw [heq] at h
    exact absurd h (by simp)
  · exact hlt

theorem sortedBelow_of_adjacent (v : List Int)
    (h : ∀ k, 1 ≤ k → k < v.length → vgetN v (k - 1) ≤ vgetN v k) :
    SortedBelow v v.length := by
  have step : ∀ d a : Nat, a + d < v.length → vgetN v a ≤ vgetN v (a + d) := by
    intro d
    induction d with
    | zero => intro a _; exact le_refl _
    | succ d' ih =>
      intro a ha
      refine le_trans (ih a (by omega)) ?_
      have := h (a + d' + 1) (by omega) (by omega)
      have heq : a + d' + 1 - 1 = a + d' := by omega
      rw [heq] at this
      have heq2 : a + (d' + 1) = a + d' + 1 := by omega
      rw [heq2]
      exact this
  intro a b hab hb
  have := step (b - a) a (by omega)
  have heq : a + (b - a) = b := by omega
  rwa [heq] at this

theorem bubble_sort_spec (v : List Int) :
    (bubble_sort v).length = v.length ∧ (bubble_sort v).Perm v ∧
      (bubble_sort v).Sorted (· ≤ ·) := by
  induction v using bubble_sort.induct with
  | case1 v h ih =>
    rw [bubble_sort, dif_pos h]
    obtain ⟨hl, hp, hs⟩ := ih
    refine ⟨by rw [hl, length_bubblePassAux], ?_, hs⟩
    exact List.Perm.trans hp (bubblePassAux_perm v 1 false)
  | case2 v h =>
    rw [bubble_sort, dif_neg h]
    have hfalse : (bubblePassAux v 1 false).2 = false := by
      revert h
      cases (bubblePassAux v 1 false).2 <;> simp
    obtain ⟨_, heq, hall⟩ := bubblePassAux_noswap v 1 false hfalse
    rw [heq]
    exact ⟨rfl, List.Perm.refl v, sorted_of_sortedBelow (sortedBelow_of_adjacent v hall)⟩

theorem bubble_sort_perm (v : List Int) : (bubble_sort v).Perm v :=
  (bubble_sort_spec v).2.1

theorem bubble_sort_sorted (v : List Int) : (bubble_sort v).Sorted (· ≤ ·) :=
  (bubble_sort_spec v).2.2

/-! ## Heap sort (src/sortcomparer.cc, `heap_sort` lines 293-307,
`max_heapify` lines 314-336)

Indices are C++ `int`s, modelled as `Int`. `heapLargest` is the value of
`largest` after the two sequential `if` statements of `max_heapify`
(the second test is written with the first `if`'s result expanded in
place). `max_heapify` recurses while `largest != i`; it terminates
because `largest` strictly increases towards `n`. -/

theorem vget_nonpos (v : List Int) (i j : Int) (hi : i ≤ 0) (hj : j ≤ 0) :
    vget v i = vget v j := by
  unfold vget
  congr 1
  omega

def heapLargest (v : List Int) (n i : Int) : Int :=
  if 2 * i + 2 < n ∧ vget v (2 * i + 2) >
      vget v (if 2 * i + 1 < n ∧ vget v (2 * i + 1) > vget v i then 2 * i + 1 else i)
  then 2 * i + 2
  else if 2 * i + 1 < n ∧ vget v (2 * i + 1) > vget v i then 2 * i + 1 else i

theorem heapLargest_ne (v : List Int) (n i : Int) (h : heapLargest v n i ≠ i) :
    0 ≤ i ∧ i < heapLargest v n i ∧ heapLargest v n i < n := by
  have hi : 0 ≤ i := by
    by_contra hneg
    push_neg at hneg
    have hl : vget v (2 * i + 1) = vget v i := vget_nonpos v _ _ (by omega) (by omega)
    have hC1 : ¬(2 * i + 1 < n ∧ vget v (2 * i + 1) > vget v i) := by
      rintro ⟨_, hgt⟩
      rw [hl] at hgt
      exact lt_irrefl _ hgt
    have hr : vget v (2 * i + 2) = vget v i := vget_nonpos v _ _ (by omega) (by omega)
    have hC2 : ¬(2 * i + 2 < n ∧ vget v (2 * i + 2) >
        vget v (if 2 * i + 1 < n ∧ vget v (2 * i + 1) > vget v i then 2 * i + 1 else i)) := by
      rw [if_neg hC1]
      rintro ⟨_, hgt⟩
      rw [hr] at hgt
      exact lt_irrefl _ hgt
    apply h
    unfold heapLargest
    rw [if_neg hC2, if_neg hC1]
  refine ⟨hi, ?_⟩
  unfold heapLargest at h ⊢
  by_cases hC2 : 2 * i + 2 < n ∧ vget v (2 * i + 2) >
      vget v (if 2 * i + 1 < n ∧ vget v (2 * i + 1) > vget v i then 2 * i + 1 else i)
  · rw [if_pos hC2]
    exact ⟨by omega, hC2.1⟩
  · rw [if_neg hC2] at h ⊢
    by_cases hC1 : 2 * i + 1 < n ∧ vget v (2 * i + 1) > vget v i
    · rw [if_pos hC1]
      exact ⟨by omega, hC1.1⟩
    · rw [if_neg hC1] at h
      exact absurd rfl h

theorem heapLargest_max (v : List Int) (n i : Int) :
    vget v i ≤ vget v (heapLargest v n i) ∧
    (2 * i + 1 < n → vget v (2 * i + 1) ≤ vget v (heapLargest v n i)) ∧
    (2 * i + 2 < n → vget v (2 * i + 2) ≤ vget v (heapLargest v n i)) ∧
    (heapLargest v n i = i ∨ heapLargest v n i = 2 * i + 1 ∨
      heapLargest v n i = 2 * i + 2) := by
  unfold heapLargest
  by_cases hC1 : 2 * i + 1 < n ∧ vget v (2 * i + 1) > vget v i
  · rw [if_pos hC1]
    by_cases hC2 : 2 * i + 2 < n ∧ vget v (2 * i + 2) > vget v (2 * i + 1)
    · rw [if_pos hC2]
      refine ⟨le_of_lt (lt_trans hC1.2 hC2.2), fun _ => le_of_lt hC2.2, fun _ => le_refl _, ?_⟩
      right; right; rfl
    · rw [if_neg hC2]
      refine ⟨le_of_lt hC1.2, fun _ => le_refl _, fun hrn => ?_, by right; left; rfl⟩
      rcases not_and_or.mp hC2 with hc | hc
      · exact absurd hrn hc
      · exact not_lt.mp hc
  · rw [if_neg hC1]
    by_cases hC2 : 2 * i + 2 < n ∧ vget v (2 * i + 2) > vget v i
    · rw [if_pos hC2]
      refine ⟨le_of_lt hC2.2, fun hln => ?_, fun _ => le_refl _, by right; right; rfl⟩
      rcases not_and_or.mp hC1 with hc | hc
      · exact absurd hln hc
      · exact le_of_lt (lt_of_le_of_lt (not_lt.mp hc) hC2.2)
    · rw [if_neg hC2]
      refine ⟨le_refl _, fun hln => ?_, fun hrn => ?_, by left; rfl⟩
      · rcases not_and_or.mp hC1 with hc | hc
        · exact absurd hln hc
        · exact not_lt.mp hc
      · rcases not_and_or.mp hC2 with hc | hc
        · exact absurd hrn hc
        · exact not_lt.mp hc

def max_heapify (v : List Int) (n i : Int) : List Int :=
  if h : heapLargest v n i ≠ i then
    max_heapify (vswap v i (heapLargest v n i)) n (heapLargest v n i)
  else v
termination_by (n - i).toNat
decreasing_by
  obtain ⟨h0, h1, h2⟩ := heapLargest_ne v n i h
  omega

/-- Array-heap descendants: `Desc i j` iff slot `j` is in the subtree rooted
at slot `i` (the positions `max_heapify v n i` may modify below `n`). -/
inductive Desc : Int → Int → Prop
  | refl (i : Int) : Desc i i
  | left {i j : Int} : Desc i j → Desc i (2 * j + 1)
  | right {i j : Int} : Desc i j → Desc i (2 * j + 2)

theorem desc_ge {i j : Int} (hi : 0 ≤ i) (h : Desc i j) : i ≤ j := by
  induction h with
  | refl => exact le_refl _
  | left _ ih => omega
  | right _ ih => omega

theorem desc_trans {i j k : Int} (h1 : Desc i j) (h2 : Desc j k) : Desc i k := by
  induction h2 with
  | refl => exact h1
  | left _ ih => exact Desc.left ih
  | right _ ih => exact Desc.right ih

theorem desc_parent {r c p : Int} (hr : 0 ≤ r) (h : Desc r c) (hne : c ≠ r)
    (hp : c = 2 * p + 1 ∨ c = 2 * p + 2) : Desc r p := by
  cases h with
  | refl => exact absurd rfl hne
  | left hm =>
    rename_i m
    have : p = m := by omega
    rw [this]
    exact hm
  | right hm =>
    rename_i m
    have : p = m := by omega
    rw [this]
    exact hm

theorem desc_zero (j : Int) (hj : 0 ≤ j) : Desc 0 j := by
  have H : ∀ m : Nat, ∀ k : Int, 0 ≤ k → k.toNat ≤ m → Desc 0 k := by
    intro m
    induction m with
    | zero =>
      intro k hk hm
      have : k = 0 := by omega
      rw [this]
      exact Desc.refl 0
    | succ m' ih =>
      intro k hk hm
      rcases eq_or_ne k 0 with rfl | hne
      · exact Desc.refl 0
      · have hpos : 1 ≤ k := by omega
        rcases Int.even_or_odd k with ⟨p, hp⟩ | ⟨p, hp⟩
        · have : k = 2 * (p - 1) + 2 := by omega
          rw [this]
          exact Desc.right (ih (p - 1) (by omega) (by omega))
        · have : k = 2 * p + 1 := by omega
          rw [this]
          exact Desc.left (ih p (by omega) (by omega))
  exact H j.toNat j hj (le_refl _)

/-- All parent-child pairs with parent index at least `lo` are heap-ordered
within the first `n` slots. -/
def HeapAbove (v : List Int) (n lo : Int) : Prop :=
  ∀ p c : Int, 0 ≤ p → lo ≤ p → (c = 2 * p + 1 ∨ c = 2 * p + 2) → c < n →
    vget v c ≤ vget v p

theorem heapAbove_mono {v : List Int} {n lo lo' : Int} (h : HeapAbove v n lo)
    (hlo : lo ≤ lo') : HeapAbove v n lo' :=
  fun p c hp hlo' hc hcn => h p c hp (by omega) hc hcn

theorem heap_desc_le {v : List Int} {n lo : Int} (h : HeapAbove v n lo)
    (r : Int) (hr : 0 ≤ r) (hlo : lo ≤ r) :
    ∀ j, Desc r j → j < n → vget v j ≤ vget v r := by
  intro j hd
  induction hd with
  | refl => intro _; exact le_refl _
  | left hm ih =>
    rename_i m
    intro hn
    have hm0 : 0 ≤ m := by have := desc_ge hr hm; omega
    have hmr : lo ≤ m := by have := desc_ge hr hm; omega
    refine le_trans (h m _ hm0 hmr (Or.inl rfl) hn) (ih ?_)
    omega
  | right hm ih =>
    rename_i m
    intro hn
    have hm0 : 0 ≤ m := by have := desc_ge hr hm; omega
    have hmr : lo ≤ m := by have := desc_ge hr hm; omega
    refine le_trans (h m _ hm0 hmr (Or.inr rfl) hn) (ih ?_)
    omega

theorem max_heapify_spec (v : List Int) (n i : Int) :
    n ≤ v.length → 0 ≤ i → HeapAbove v n (i + 1) →
    (max_heapify v n i).length = v.length ∧
    (max_heapify v n i).Perm v ∧
    (∀ j : Int, 0 ≤ j → ¬(Desc i j ∧ j < n) → vget (max_heapify v n i) j = vget v j) ∧
    HeapAbove (max_heapify v n i) n i ∧
    (∀ M : Int, (∀ j, Desc i j → j < n → vget v j ≤ M) →
      ∀ j, Desc i j → j < n → vget (max_heapify v n i) j ≤ M) := by
  induction v, n, i using max_heapify.induct with
  | case1 v n i h ih =>
    intro hn hi pre
    rw [max_heapify, dif_pos h]
    obtain ⟨hi0, hlt, hltn⟩ := heapLargest_ne v n i h
    obtain ⟨hmax_i, hmax_l, hmax_r, hcases⟩ := heapLargest_max v n i
    obtain ⟨lg, hlg⟩ : ∃ m, heapLargest v n i = m := ⟨_, rfl⟩
    rw [hlg] at h ih hlt hltn hmax_i hmax_l hmax_r hcases ⊢
    have hchild : lg = 2 * i + 1 ∨ lg = 2 * i + 2 := by
      rcases hcases with h1 | h1 | h1
      · exact absurd h1 h
      · exact Or.inl h1
      · exact Or.inr h1
    have hdesc_ilg : Desc i lg := by
      rcases hchild with h1 | h1
      · rw [h1]; exact Desc.left (Desc.refl i)
      · rw [h1]; exact Desc.right (Desc.refl i)
    have hilen : i < (v.length : Int) := by omega
    have hlglen : lg < (v.length : Int) := by omega
    have hv' : ∀ x : Int, vget (vswap v i lg) x =
        if x.toNat = lg.toNat then vget v i else if x.toNat = i.toNat then vget v lg
        else vget v x := fun x => vget_vswap v i lg x hi (by omega) (by omega) (by omega)
    have pre' : HeapAbove (vswap v i lg) n (lg + 1) := by
      intro p c hp0 hplo hc hcn
      have hcgt : lg < c := by rcases hc with rfl | rfl <;> omega
      rw [hv' p, hv' c, if_neg (by omega : ¬p.toNat = lg.toNat),
        if_neg (by omega : ¬p.toNat = i.toNat), if_neg (by omega : ¬c.toNat = lg.toNat),
        if_neg (by omega : ¬c.toNat = i.toNat)]
      exact pre p c hp0 (by omega) hc hcn
    obtain ⟨ihlen, ihperm, ihframe, ihheap, ihtrans⟩ :=
      ih (by rw [length_vswap]; exact hn) (by omega) pre'
    have hsub : ∀ j, Desc lg j → j < n → vget v j ≤ vget v lg :=
      heap_desc_le pre lg (by omega) (by omega)
    have hv'bound : ∀ j, Desc lg j → j < n → vget (vswap v i lg) j ≤ vget v lg := by
      intro j hd hj
      rcases eq_or_ne j lg with rfl | hne
      · rw [hv' j, if_pos rfl]
        exact hmax_i
      · have hgt : lg < j := by have := desc_ge (by omega) hd; omega
        rw [hv' j, if_neg (by omega), if_neg (by omega)]
        exact hsub j hd hj
    refine ⟨by rw [ihlen, length_vswap], ?_, ?_, ?_, ?_⟩
    · exact List.Perm.trans ihperm (vswap_perm v i lg hi (by omega) (by omega) (by omega))
    · intro j hj0 hjn
      have hji : j ≠ i := by
        rintro rfl
        exact hjn ⟨Desc.refl j, by omega⟩
      have hjlg : j ≠ lg := by
        rintro rfl
        exact hjn ⟨hdesc_ilg, by omega⟩
      rw [ihframe j hj0 (fun hdn => hjn ⟨desc_trans hdesc_ilg hdn.1, hdn.2⟩)]
      rw [hv' j, if_neg (by omega), if_neg (by omega)]
    · intro p c hp0 hpi' hc hcn
      by_cases hplg : lg ≤ p
      · exact ihheap p c hp0 hplg hc hcn
      · push_neg at hplg
        have hwp_of : ∀ x : Int, 0 ≤ x → x ≠ i → x ≠ lg → ¬ Desc lg x →
            vget (max_heapify (vswap v i lg) n lg) x = vget v x := by
          intro x hx0 hxi hxlg hxd
          rw [ihframe x hx0 (fun hdn => hxd hdn.1)]
          rw [hv' x, if_neg (by omega), if_neg (by omega)]
        rcases eq_or_ne p i with rfl | hpi_ne
        · have hwp : vget (max_heapify (vswap v p lg) n lg) p = vget v lg := by
            rw [ihframe p (by omega)
              (by rintro ⟨hd, _⟩; have := desc_ge (by omega) hd; omega)]
            rw [hv' p, if_neg (by omega), if_pos rfl]
          rcases eq_or_ne c lg with rfl | hclg
          · rw [hwp]
            exact ihtrans (vget v c) hv'bound c (Desc.refl c) hcn
          · have hc0 : 0 ≤ c := by rcases hc with rfl | rfl <;> omega
            have hcd : ¬ Desc lg c := by
              intro hd
              have := desc_ge (by omega) (desc_parent (by omega) hd hclg hc)
              omega
            rw [hwp, hwp_of c hc0 (by rcases hc with rfl | rfl <;> omega) hclg hcd]
            rcases hc with rfl | rfl
            · exact hmax_l hcn
            · exact hmax_r hcn
        · have hpgt : i < p := by omega
          have hcgt : lg < c := by rcases hc with rfl | rfl <;> rcases hchild with h1 | h1 <;> omega
          have hcd : ¬ Desc lg c := by
            intro hd
            have := desc_ge (by omega) (desc_parent (by omega) hd (by omega) hc)
            omega
          have hpd : ¬ Desc lg p := by
            intro hd
            have := desc_ge (by omega) hd
            omega
          rw [hwp_of p hp0 (by omega) (by omega) hpd,
            hwp_of c (by omega) (by omega) (by omega) hcd]
          exact pre p c hp0 (by omega) hc hcn
    · intro M hM j hdij hjn
      have hv'M : ∀ x, Desc lg x → x < n → vget (vswap v i lg) x ≤ M := by
        intro x hd hx
        rcases eq_or_ne x lg with rfl | hne
        · rw [hv' x, if_pos rfl]
          exact hM i (Desc.refl i) (by omega)
        · have hgt : lg < x := by have := desc_ge (by omega) hd; omega
          rw [hv' x, if_neg (by omega), if_neg (by omega)]
          exact hM x (desc_trans hdesc_ilg hd) hx
      by_cases hdlg : Desc lg j
      · exact ihtrans M hv'M j hdlg hjn
      · have hj0 : 0 ≤ j := by have := desc_ge hi hdij; omega
        rw [ihframe j hj0 (fun hdn => hdlg hdn.1)]
        rcases eq_or_ne j lg with rfl | hjlg
        · exact absurd (Desc.refl j) hdlg
        · rcases eq_or_ne j i with rfl | hji
          · rw [hv' j, if_neg (by omega), if_pos rfl]
            exact hM lg hdesc_ilg (by omega)
          · rw [hv' j, if_neg (by omega), if_neg (by omega)]
            exact hM j hdij hjn
  | case2 v n i h =>
    intro hn hi pre
    rw [max_heapify, dif_neg h]
    rw [not_ne_iff] at h
    obtain ⟨hmax_i, hmax_l, hmax_r, _⟩ := heapLargest_max v n i
    rw [h] at hmax_l hmax_r
    refine ⟨rfl, List.Perm.refl v, fun j _ _ => rfl, ?_, fun M hM j hd hj => hM j hd hj⟩
    intro p c hp0 hplo hc hcn
    rcases eq_or_ne p i with rfl | hpi
    · rcases hc with rfl | rfl
      · exact hmax_l hcn
      · exact hmax_r hcn
    · exact pre p c hp0 (by omega) hc hcn

def buildLoop (v : List Int) (n i : Int) : List Int :=
  if h : i ≥ 0 then buildLoop (max_heapify v n i) n (i - 1) else v
termination_by (i + 1).toNat
decreasing_by omega

def extractLoop (v : List Int) (i : Int) : List Int :=
  if h : i ≥ 0 then extractLoop (max_heapify (vswap v 0 i) i 0) (i - 1) else v
termination_by (i + 1).toNat
decreasing_by omega

def heap_sort (v : List Int) : List Int :=
  extractLoop (buildLoop v (v.length : Int) ((v.length : Int) / 2 - 1))
    ((v.length : Int) - 1)

theorem buildLoop_spec (v : List Int) (n i : Int) :
    n ≤ v.length → HeapAbove v n (i + 1) →
    (buildLoop v n i).length = v.length ∧ (buildLoop v n i).Perm v ∧
      HeapAbove (buildLoop v n i) n 0 := by
  induction v, n, i using buildLoop.induct with
  | case1 v n i h ih =>
    intro hn pre
    rw [buildLoop, dif_pos h]
    obtain ⟨hlen, hperm, _, hheap, _⟩ := max_heapify_spec v n i hn h pre
    have hpre' : HeapAbove (max_heapify v n i) n (i - 1 + 1) := by
      have heq : i - 1 + 1 = i := by omega
      rw [heq]
      exact hheap
    obtain ⟨ihlen, ihperm, ihheap⟩ := ih (by rw [hlen]; exact hn) hpre'
    exact ⟨by rw [ihlen, hlen], List.Perm.trans ihperm hperm, ihheap⟩
  | case2 v n i h =>
    intro hn pre
    rw [buildLoop, dif_neg h]
    exact ⟨rfl, List.Perm.refl v, heapAbove_mono pre (by omega)⟩

theorem extractLoop_spec (v : List Int) (i : Int) :
    i < v.length → HeapAbove v (i + 1) 0 →
    (∀ a b : Int, i < a → a ≤ b → b < v.length → vget v a ≤ vget v b) →
    (∀ a b : Int, 0 ≤ a → a ≤ i → i < b → b < v.length → vget v a ≤ vget v b) →
    (extractLoop v i).length = v.length ∧ (extractLoop v i).Perm v ∧
      (∀ a b : Int, 0 ≤ a → a ≤ b → b < v.length →
        vget (extractLoop v i) a ≤ vget (extractLoop v i) b) := by
  induction v, i using extractLoop.induct with
  | case1 v i h ih =>
    intro hlen hheap hsuffix hpart
    rw [extractLoop, dif_pos h]
    have h0len : (0 : Int) < v.length := by omega
    have hv1 : ∀ x : Int, vget (vswap v 0 i) x =
        if x.toNat = i.toNat then vget v 0 else if x.toNat = (0 : Int).toNat then vget v i
        else vget v x := fun x => vget_vswap v 0 i x (le_refl 0) h0len h hlen
    have hmaxregion : ∀ j : Int, 0 ≤ j → j ≤ i → vget v j ≤ vget v 0 := by
      intro j hj0 hji
      exact heap_desc_le hheap 0 (le_refl 0) (le_refl 0) j (desc_zero j hj0) (by omega)
    have hpre : HeapAbove (vswap v 0 i) i 1 := by
      intro p c hp0 hplo hc hcn
      have hcp : p < c := by rcases hc with rfl | rfl <;> omega
      rw [hv1 p, hv1 c, if_neg (by omega : ¬p.toNat = i.toNat),
        if_neg (by omega : ¬p.toNat = (0 : Int).toNat),
        if_neg (by omega : ¬c.toNat = i.toNat),
        if_neg (by omega : ¬c.toNat = (0 : Int).toNat)]
      exact hheap p c hp0 (by omega) hc (by omega)
    obtain ⟨mhlen, mhperm, mhframe, mhheap, mhtrans⟩ :=
      max_heapify_spec (vswap v 0 i) i 0 (by rw [length_vswap]; omega) (le_refl 0) hpre
    have hwlen : (max_heapify (vswap v 0 i) i 0).length = v.length := by
      rw [mhlen, length_vswap]
    have hwsufval : ∀ x : Int, i ≤ x →
        vget (max_heapify (vswap v 0 i) i 0) x =
          if x.toNat = i.toNat then vget v 0 else vget v x := by
      intro x hx
      rw [mhframe x (by omega) (by rintro ⟨_, hlt'⟩; omega), hv1 x]
      by_cases hxi : x.toNat = i.toNat
      · rw [if_pos hxi, if_pos hxi]
      · rw [if_neg hxi, if_neg hxi, if_neg (by omega : ¬x.toNat = (0 : Int).toNat)]
    have hwbound : ∀ x : Int, 0 ≤ x → x < i →
        vget (max_heapify (vswap v 0 i) i 0) x ≤ vget v 0 := by
      intro x hx0 hxi
      refine mhtrans (vget v 0) ?_ x (desc_zero x hx0) hxi
      intro y hdy hy
      have hy0 : 0 ≤ y := by have := desc_ge (le_refl 0) hdy; omega
      rw [hv1 y, if_neg (by omega : ¬y.toNat = i.toNat)]
      by_cases hy_0 : y.toNat = (0 : Int).toNat
      · rw [if_pos hy_0]
        exact hmaxregion i (by omega) (le_refl i)
      · rw [if_neg hy_0]
        exact hmaxregion y hy0 (by omega)
    have hlen' : i - 1 < ((max_heapify (vswap v 0 i) i 0).length : Int) := by
      rw [hwlen]
      omega
    have hheap' : HeapAbove (max_heapify (vswap v 0 i) i 0) (i - 1 + 1) 0 := by
      have heq : i - 1 + 1 = i := by omega
      rw [heq]
      exact mhheap
    have hsuffix' : ∀ a b : Int, i - 1 < a → a ≤ b →
        b < ((max_heapify (vswap v 0 i) i 0).length : Int) →
        vget (max_heapify (vswap v 0 i) i 0) a ≤
          vget (max_heapify (vswap v 0 i) i 0) b := by
      intro a b ha hab hb
      rw [hwlen] at hb
      rw [hwsufval a (by omega), hwsufval b (by omega)]
      by_cases hai : a.toNat = i.toNat
      · rw [if_pos hai]
        by_cases hbi : b.toNat = i.toNat
        · rw [if_pos hbi]
        · rw [if_neg hbi]
          exact hpart 0 b (le_refl 0) h (by omega) hb
      · rw [if_neg hai]
        by_cases hbi : b.toNat = i.toNat
        · rw [if_pos hbi]
          omega
        · rw [if_neg hbi]
          exact hsuffix a b (by omega) hab hb
    have hpart' : ∀ a b : Int, 0 ≤ a → a ≤ i - 1 → i - 1 < b →
        b < ((max_heapify (vswap v 0 i) i 0).length : Int) →
        vget (max_heapify (vswap v 0 i) i 0) a ≤
          vget (max_heapify (vswap v 0 i) i 0) b := by
      intro a b ha0 hai hbi hb
      rw [hwlen] at hb
      have hwa : vget (max_heapify (vswap v 0 i) i 0) a ≤ vget v 0 :=
        hwbound a ha0 (by omega)
      rw [hwsufval b (by omega)]
      by_cases hbieq : b.toNat = i.toNat
      · rw [if_pos hbieq]
        exact hwa
      · rw [if_neg hbieq]
        exact le_trans hwa (hpart 0 b (le_refl 0) h (by omega) hb)
    obtain ⟨elen, eperm, esorted⟩ := ih hlen' hheap' hsuffix' hpart'
    refine ⟨by rw [elen, hwlen], ?_, ?_⟩
    · exact List.Perm.trans eperm
        (List.Perm.trans mhperm (vswap_perm v 0 i (le_refl 0) h0len h hlen))
    · intro a b ha hab hb
      exact esorted a b ha hab (by rw [hwlen]; exact hb)
  | case2 v i h =>
    intro hlen hheap hsuffix hpart
    rw [extractLoop, dif_neg h]
    exact ⟨rfl, List.Perm.refl v, fun a b ha hab hb => hsuffix a b (by omega) hab hb⟩

theorem sorted_of_vget (w : List Int)
    (h : ∀ a b : Int, 0 ≤ a → a ≤ b → b < w.length → vget w a ≤ vget w b) :
    w.Sorted (· ≤ ·) := by
  apply sorted_of_sortedBelow
  intro a b hab hb
  have := h a b (by omega) (by omega) (by omega)
  simpa [vget, vgetN] using this

theorem heap_sort_spec (v : List Int) :
    (heap_sort v).length = v.length ∧ (heap_sort v).Perm v ∧
      (heap_sort v).Sorted (· ≤ ·) := by
  unfold heap_sort
  have hpre : HeapAbove v (v.length : Int) ((v.length : Int) / 2 - 1 + 1) := by
    intro p c hp0 hplo hc hcn
    exact absurd hcn (by rcases hc with rfl | rfl <;> omega)
  obtain ⟨blen, bperm, bheap⟩ :=
    buildLoop_spec v (v.length : Int) ((v.length : Int) / 2 - 1) (le_refl _) hpre
  have hblen : ((buildLoop v (v.length : Int) ((v.length : Int) / 2 - 1)).length : Int) =
      (v.length : Int) := by
    rw [blen]
  obtain ⟨elen, eperm, esorted⟩ :=
    extractLoop_spec (buildLoop v (v.length : Int) ((v.length : Int) / 2 - 1))
      ((v.length : Int) - 1)
      (by rw [hblen]; omega)
      (by
        have heq : (v.length : Int) - 1 + 1 = (v.length : Int) := by omega
        rw [heq]
        exact bheap)
      (fun a b ha hab hb => absurd hb (by rw [hblen]; omega))
      (fun a b ha0 hai hbi hb => absurd hb (by rw [hblen]; omega))
  refine ⟨by rw [elen, blen], List.Perm.trans eperm bperm, ?_⟩
  apply sorted_of_vget
  intro a b ha hab hb
  refine esorted a b ha hab ?_
  rw [hblen]
  rw [elen, blen] at hb
  exact hb

theorem heap_sort_perm (v : List Int) : (heap_sort v).Perm v :=
  (heap_sort_spec v).2.1

theorem heap_sort_sorted (v : List Int) : (heap_sort v).Sorted (· ≤ ·) :=
  (heap_sort_spec v).2.2

/-! ## Slices of a vector

`vslice v a b` is `v[a..b]` (inclusive bounds, C++ `int` indices), used to
state what `partition_sublist`, `quick_sort_sublist`, `merge_sublists` and
`merge_sort_sublist` do to the subrange they operate on. -/

def vslice (v : List Int) (a b : Int) : List Int :=
  (v.drop a.toNat).take (b + 1 - a).toNat

theorem vgetN_take (v : List Int) (n m : Nat) (h : m < n) :
    vgetN (v.take n) m = vgetN v m := by
  induction v generalizing n m with
  | nil => simp [vgetN]
  | cons a t ih =>
    cases n with
    | zero => omega
    | succ n' =>
      cases m with
      | zero => rfl
      | succ m' => exact ih n' m' (by omega)

theorem vgetN_drop (v : List Int) (n m : Nat) :
    vgetN (v.drop n) m = vgetN v (n + m) := by
  induction v generalizing n with
  | nil => simp [vgetN]
  | cons a t ih =>
    cases n with
    | zero => rw [List.drop_zero, Nat.zero_add]
    | succ n' =>
      show vgetN (t.drop n') m = _
      rw [ih n']
      have heq : n' + 1 + m = (n' + m) + 1 := by omega
      rw [heq]
      rfl

theorem length_slice (v : List Int) (a b : Int) :
    (vslice v a b).length = min (b + 1 - a).toNat (v.length - a.toNat) := by
  simp [vslice, Nat.min_comm]

theorem vgetN_slice (v : List Int) (a b : Int) (m : Nat)
    (h : m < (b + 1 - a).toNat) :
    vgetN (vslice v a b) m = vgetN v (a.toNat + m) := by
  unfold vslice
  rw [vgetN_take _ _ _ h, vgetN_drop]

theorem vgetN_getElem (v : List Int) (i : Nat) (h : i < v.length) :
    v[i] = vgetN v i := by
  rw [vgetN_eq_getElem v i h]
  simp

theorem mem_slice (v : List Int) (a b m : Int) (h0 : 0 ≤ a) (h1 : a ≤ m)
    (h2 : m ≤ b) (h3 : b < v.length) : vget v m ∈ vslice v a b := by
  have hlen : (vslice v a b).length = (b + 1 - a).toNat := by
    rw [length_slice]
    omega
  have hk : (m - a).toNat < (vslice v a b).length := by
    rw [hlen]
    omega
  have : (vslice v a b)[(m - a).toNat] = vget v m := by
    rw [vgetN_getElem _ _ hk, vgetN_slice v a b _ (by omega)]
    unfold vget
    congr 1
    omega
  rw [← this]
  exact List.getElem_mem hk

theorem slice_mem_char (v : List Int) (a b : Int) (x : Int) (h0 : 0 ≤ a)
    (hx : x ∈ vslice v a b) : ∃ m : Int, a ≤ m ∧ m ≤ b ∧ vget v m = x := by
  obtain ⟨k, hk, hkx⟩ := List.mem_iff_getElem.mp hx
  have hk' : k < (b + 1 - a).toNat := by
    rw [length_slice] at hk
    omega
  refine ⟨a + k, by omega, by omega, ?_⟩
  rw [← hkx, vgetN_getElem _ _ hk, vgetN_slice v a b k hk']
  unfold vget
  congr 1
  omega

theorem slice_pred_transfer (v w : List Int) (a b : Int) (P : Int → Prop)
    (hperm : (vslice w a b).Perm (vslice v a b)) (h0 : 0 ≤ a)
    (hbw : b < w.length)
    (hbound : ∀ m : Int, a ≤ m → m ≤ b → P (vget v m)) :
    ∀ m : Int, a ≤ m → m ≤ b → P (vget w m) := by
  intro m h1 h2
  have hmem : vget w m ∈ vslice w a b := mem_slice w a b m h0 h1 h2 hbw
  have hmem' : vget w m ∈ vslice v a b := hperm.mem_iff.mp hmem
  obtain ⟨m', hm1, hm2, hm3⟩ := slice_mem_char v a b _ h0 hmem'
  rw [← hm3]
  exact hbound m' hm1 hm2

theorem slice_congr (v w : List Int) (a b : Int) (h0 : 0 ≤ a)
    (hlen : w.length = v.length)
    (h : ∀ m : Int, a ≤ m → m ≤ b → vget w m = vget v m) :
    vslice w a b = vslice v a b := by
  apply List.ext_getElem
  · rw [length_slice, length_slice, hlen]
  · intro k hk1 hk2
    have hk' : k < (b + 1 - a).toNat := by
      rw [length_slice] at hk1
      omega
    rw [vgetN_getElem _ _ hk1, vgetN_getElem _ _ hk2,
      vgetN_slice w a b k hk', vgetN_slice v a b k hk']
    have := h (a + k) (by omega) (by omega)
    unfold vget at this
    have heq : (a + k).toNat = a.toNat + k := by omega
    rw [heq] at this
    exact this

theorem slice_split (v : List Int) (a m b : Int) (h0 : 0 ≤ a) (h1 : a ≤ m + 1)
    (h2 : m ≤ b) : vslice v a b = vslice v a m ++ vslice v (m + 1) b := by
  unfold vslice
  have hsum : (b + 1 - a).toNat = (m + 1 - a).toNat + (b + 1 - (m + 1)).toNat := by
    omega
  have hdd : (v.drop a.toNat).drop (m + 1 - a).toNat = v.drop (m + 1).toNat := by
    rw [List.drop_drop]
    congr 1
    omega
  rw [hsum, List.take_add, hdd]

theorem slice_single (v : List Int) (a : Int) (h0 : 0 ≤ a) (h1 : a < v.length) :
    vslice v a a = [vget v a] := by
  apply List.ext_getElem
  · rw [length_slice]
    simp
    omega
  · intro k hk1 hk2
    have hk : k = 0 := by
      rw [length_slice] at hk1
      omega
    subst hk
    rw [vgetN_getElem _ _ hk1, vgetN_slice v a a 0 (by omega)]
    simp [vget]

theorem slice_full (v : List Int) : vslice v 0 ((v.length : Int) - 1) = v := by
  unfold vslice
  have h1 : (0 : Int).toNat = 0 := rfl
  have h2 : ((v.length : Int) - 1 + 1 - 0).toNat = v.length := by omega
  rw [h1, h2, List.drop_zero, List.take_length]

theorem slice_vswap_perm (v : List Int) (a b i j : Int) (h0 : 0 ≤ a)
    (hi1 : a ≤ i) (hi2 : i ≤ b) (hj1 : a ≤ j) (hj2 : j ≤ b)
    (hlen : b < v.length) :
    (vslice (vswap v i j) a b).Perm (vslice v a b) := by
  have hiv : i.toNat < v.length := by omega
  have hjv : j.toNat < v.length := by omega
  have hswlen : (vswap v i j).length = v.length := length_vswap v i j
  have heq : vslice (vswap v i j) a b =
      vswapN (vslice v a b) (i - a).toNat (j - a).toNat := by
    apply List.ext_getElem
    · rw [length_slice, length_vswapN, length_slice, hswlen]
    · intro k hk1 hk2
      have hk' : k < (b + 1 - a).toNat := by
        rw [length_slice, hswlen] at hk1
        omega
      have hsl : (vslice v a b).length = (b + 1 - a).toNat := by
        rw [length_slice]
        omega
      rw [vgetN_getElem _ _ hk1, vgetN_getElem _ _ hk2,
        vgetN_slice (vswap v i j) a b k hk']
      unfold vswap
      rw [vgetN_vswapN v i.toNat j.toNat _ hiv hjv,
        vgetN_vswapN (vslice v a b) (i - a).toNat (j - a).toNat k
          (by rw [hsl]; omega) (by rw [hsl]; omega)]
      by_cases hkj : a.toNat + k = j.toNat
      · rw [if_pos hkj, if_pos (by omega : k = (j - a).toNat),
          vgetN_slice v a b _ (by omega)]
        congr 1
        omega
      · rw [if_neg hkj, if_neg (by omega : ¬k = (j - a).toNat)]
        by_cases hki : a.toNat + k = i.toNat
        · rw [if_pos hki, if_pos (by omega : k = (i - a).toNat),
            vgetN_slice v a b _ (by omega)]
          congr 1
          omega
        · rw [if_neg hki, if_neg (by omega : ¬k = (i - a).toNat),
            vgetN_slice v a b k hk']
  rw [heq]
  apply vswapN_perm
  · rw [length_slice]
    omega
  · rw [length_slice]
    omega

/-! ## Quick sort (src/sortcomparer.cc, `quick_sort` lines 414-417,
`quick_sort_sublist` lines 423-432, `partition_sublist` lines 441-454)

Indices are C++ `int`s (`Int` here). `partLoop` is the
`for (j = start; j < end; ++j)` scan of `partition_sublist`;
`partition_sublist` then performs `std::swap(v[++i], v[end])` and
returns `i`. `quick_sort` calls with `end = v.size() - 1`, which is `-1`
on the empty vector. -/

def partLoop (v : List Int) (start iEnd i j : Int) : List Int × Int :=
  if h : j < iEnd then
    if vget v j ≤ vget v iEnd then partLoop (vswap v (i + 1) j) start iEnd (i + 1) (j + 1)
    else partLoop v start iEnd i (j + 1)
  else (v, i)
termination_by (iEnd - j).toNat
decreasing_by
  · omega
  · omega

def partition_sublist (v : List Int) (start iEnd : Int) : List Int × Int :=
  (vswap (partLoop v start iEnd (start - 1) start).1
      ((partLoop v start iEnd (start - 1) start).2 + 1) iEnd,
    (partLoop v start iEnd (start - 1) start).2 + 1)

theorem partLoop_bounds (v : List Int) (start iEnd i j : Int) :
    i < j → j ≤ iEnd →
    i ≤ (partLoop v start iEnd i j).2 ∧ (partLoop v start iEnd i j).2 < iEnd := by
  induction v, start, iEnd, i, j using partLoop.induct with
  | case1 v start iEnd i j h hc ih =>
    intro hij hje
    rw [partLoop, dif_pos h, if_pos hc]
    have := ih (by omega) (by omega)
    omega
  | case2 v start iEnd i j h hc ih =>
    intro hij hje
    rw [partLoop, dif_pos h, if_neg hc]
    have := ih (by omega) (by omega)
    omega
  | case3 v start iEnd i j h =>
    intro hij hje
    rw [partLoop, dif_neg h]
    exact ⟨le_refl i, by omega⟩

theorem partition_bounds (v : List Int) (start iEnd : Int) (h : start < iEnd) :
    start ≤ (partition_sublist v start iEnd).2 ∧
      (partition_sublist v start iEnd).2 ≤ iEnd := by
  obtain ⟨h1, h2⟩ := partLoop_bounds v start iEnd (start - 1) start (by omega) (by omega)
  unfold partition_sublist
  constructor
  · show start ≤ (partLoop v start iEnd (start - 1) start).2 + 1
    omega
  · show (partLoop v start iEnd (start - 1) start).2 + 1 ≤ iEnd
    omega

def quick_sort_sublist (v : List Int) (start iEnd : Int) : List Int :=
  if h : start < iEnd then
    quick_sort_sublist
      (quick_sort_sublist (partition_sublist v start iEnd).1 start
        ((partition_sublist v start iEnd).2 - 1))
      ((partition_sublist v start iEnd).2 + 1) iEnd
  else v
termination_by (iEnd - start + 1).toNat
decreasing_by
  · have := partition_bounds v start iEnd h
    omega
  · have := partition_bounds v start iEnd h
    omega

def quick_sort (v : List Int) : List Int := quick_sort_sublist v 0 ((v.length : Int) - 1)

theorem vget_congr (v : List Int) (x y : Int) (h : x.toNat = y.toNat) :
    vget v x = vget v y := by
  unfold vget
  rw [h]

theorem partLoop_spec (v : List Int) (start iEnd i j : Int) :
    0 ≤ start → start ≤ j → j ≤ iEnd → start - 1 ≤ i → i < j → iEnd < v.length →
    (∀ m : Int, start ≤ m → m ≤ i → vget v m ≤ vget v iEnd) →
    (∀ m : Int, i < m → m < j → vget v iEnd < vget v m) →
    (partLoop v start iEnd i j).1.length = v.length ∧
    (partLoop v start iEnd i j).1.Perm v ∧
    (i ≤ (partLoop v start iEnd i j).2 ∧ (partLoop v start iEnd i j).2 < iEnd) ∧
    (∀ m : Int, 0 ≤ m → (m < start ∨ iEnd ≤ m) →
      vget (partLoop v start iEnd i j).1 m = vget v m) ∧
    (vslice (partLoop v start iEnd i j).1 start iEnd).Perm (vslice v start iEnd) ∧
    (∀ m : Int, start ≤ m → m ≤ (partLoop v start iEnd i j).2 →
      vget (partLoop v start iEnd i j).1 m ≤ vget (partLoop v start iEnd i j).1 iEnd) ∧
    (∀ m : Int, (partLoop v start iEnd i j).2 < m → m < iEnd →
      vget (partLoop v start iEnd i j).1 iEnd < vget (partLoop v start iEnd i j).1 m) := by
  induction v, start, iEnd, i, j using partLoop.induct with
  | case1 v start iEnd i j h hc ih =>
    intro h0 hsj hje hsi hij hlen hle hgt
    rw [partLoop, dif_pos h, if_pos hc]
    have hi1 : 0 ≤ i + 1 := by omega
    have hj0 : 0 ≤ j := by omega
    have hi1len : i + 1 < (v.length : Int) := by omega
    have hjlen : j < (v.length : Int) := by omega
    have hv' : ∀ x : Int, vget (vswap v (i + 1) j) x =
        if x.toNat = j.toNat then vget v (i + 1) else if x.toNat = (i + 1).toNat then vget v j
        else vget v x := fun x => vget_vswap v (i + 1) j x hi1 hi1len hj0 hjlen
    have hpivot : vget (vswap v (i + 1) j) iEnd = vget v iEnd := by
      rw [hv' iEnd, if_neg (by omega), if_neg (by omega)]
    have hle' : ∀ m : Int, start ≤ m → m ≤ i + 1 →
        vget (vswap v (i + 1) j) m ≤ vget (vswap v (i + 1) j) iEnd := by
      intro m hm1 hm2
      rw [hpivot, hv' m]
      by_cases hmj : m.toNat = j.toNat
      · rw [if_pos hmj]
        have hmeq : m = j := by omega
        have hij1 : i + 1 = j := by omega
        rw [vget_congr v (i + 1) j (by omega)]
        exact hc
      · rw [if_neg hmj]
        by_cases hmi : m.toNat = (i + 1).toNat
        · rw [if_pos hmi]
          exact hc
        · rw [if_neg hmi]
          exact hle m hm1 (by omega)
    have hgt' : ∀ m : Int, i + 1 < m → m < j + 1 →
        vget (vswap v (i + 1) j) iEnd < vget (vswap v (i + 1) j) m := by
      intro m hm1 hm2
      rw [hpivot, hv' m]
      by_cases hmj : m.toNat = j.toNat
      · rw [if_pos hmj]
        exact hgt (i + 1) (by omega) (by omega)
      · rw [if_neg hmj, if_neg (by omega)]
        exact hgt m (by omega) (by omega)
    obtain ⟨ihlen, ihperm, ihbounds, ihframe, ihslice, ihple, ihpgt⟩ :=
      ih h0 (by omega) (by omega) (by omega) (by omega)
        (by rw [length_vswap]; omega) hle' hgt'
    refine ⟨by rw [ihlen, length_vswap], ?_, by omega, ?_, ?_, ihple, ihpgt⟩
    · exact List.Perm.trans ihperm (vswap_perm v (i + 1) j hi1 hi1len hj0 hjlen)
    · intro m hm0 hm
      rw [ihframe m hm0 hm, hv' m, if_neg (by omega), if_neg (by omega)]
    · refine List.Perm.trans ihslice ?_
      exact slice_vswap_perm v start iEnd (i + 1) j h0 (by omega) (by omega)
        (by omega) (by omega) hlen
  | case2 v start iEnd i j h hc ih =>
    intro h0 hsj hje hsi hij hlen hle hgt
    rw [partLoop, dif_pos h, if_neg hc]
    have hgt' : ∀ m : Int, i < m → m < j + 1 → vget v iEnd < vget v m := by
      intro m hm1 hm2
      by_cases hmj : m = j
      · rw [hmj]
        exact not_le.mp hc
      · exact hgt m hm1 (by omega)
    exact ih h0 (by omega) (by omega) (by omega) (by omega) hlen hle hgt'
  | case3 v start iEnd i j h =>
    intro h0 hsj hje hsi hij hlen hle hgt
    rw [partLoop, dif_neg h]
    have hjeq : j = iEnd := by omega
    refine ⟨rfl, List.Perm.refl v, by omega, fun m _ _ => rfl, List.Perm.refl _,
      hle, ?_⟩
    intro m hm1 hm2
    exact hgt m hm1 (by omega)

theorem partition_sublist_spec (v : List Int) (start iEnd : Int) :
    0 ≤ start → start ≤ iEnd → iEnd < v.length →
    (partition_sublist v start iEnd).1.length = v.length ∧
    (partition_sublist v start iEnd).1.Perm v ∧
    (start ≤ (partition_sublist v start iEnd).2 ∧
      (partition_sublist v start iEnd).2 ≤ iEnd) ∧
    vget (partition_sublist v start iEnd).1 (partition_sublist v start iEnd).2 =
      vget v iEnd ∧
    (∀ m : Int, start ≤ m → m < (partition_sublist v start iEnd).2 →
      vget (partition_sublist v start iEnd).1 m ≤ vget v iEnd) ∧
    (∀ m : Int, (partition_sublist v start iEnd).2 < m → m ≤ iEnd →
      vget v iEnd < vget (partition_sublist v start iEnd).1 m) ∧
    (vslice (partition_sublist v start iEnd).1 start iEnd).Perm (vslice v start iEnd) ∧
    (∀ m : Int, 0 ≤ m → (m < start ∨ iEnd < m) →
      vget (partition_sublist v start iEnd).1 m = vget v m) := by
  intro h0 hse hlen
  obtain ⟨L1, P1, ⟨B1, B2⟩, F1, S1, PL1, PG1⟩ :=
    partLoop_spec v start iEnd (start - 1) start h0 (le_refl start) hse (le_refl _)
      (by omega) hlen (fun m hm1 hm2 => absurd (le_trans hm1 hm2) (by omega))
      (fun m hm1 hm2 => absurd hm1 (by omega))
  unfold partition_sublist
  obtain ⟨w1, hw1⟩ : ∃ w, (partLoop v start iEnd (start - 1) start).1 = w := ⟨_, rfl⟩
  obtain ⟨r, hr⟩ : ∃ r, (partLoop v start iEnd (start - 1) start).2 = r := ⟨_, rfl⟩
  simp only [hw1, hr] at L1 P1 B1 B2 F1 S1 PL1 PG1 ⊢
  have hplen : r + 1 ≤ iEnd := by omega
  have hp0 : 0 ≤ r + 1 := by omega
  have hpw1 : r + 1 < (w1.length : Int) := by rw [L1]; omega
  have hew1 : iEnd < (w1.length : Int) := by rw [L1]; omega
  have hpiv1 : vget w1 iEnd = vget v iEnd := F1 iEnd (by omega) (Or.inr (le_refl _))
  have hw : ∀ x : Int, vget (vswap w1 (r + 1) iEnd) x =
      if x.toNat = iEnd.toNat then vget w1 (r + 1)
      else if x.toNat = (r + 1).toNat then vget w1 iEnd else vget w1 x :=
    fun x => vget_vswap w1 (r + 1) iEnd x hp0 hpw1 (by omega) hew1
  refine ⟨?_, ?_, by omega, ?_, ?_, ?_, ?_, ?_⟩
  · show (vswap w1 (r + 1) iEnd).length = v.length
    rw [length_vswap, L1]
  · exact List.Perm.trans (vswap_perm w1 (r + 1) iEnd hp0 hpw1 (by omega) hew1) P1
  · show vget (vswap w1 (r + 1) iEnd) (r + 1) = vget v iEnd
    rw [hw (r + 1)]
    by_cases hpe : (r + 1).toNat = iEnd.toNat
    · rw [if_pos hpe, vget_congr w1 (r + 1) iEnd (by omega)]
      exact hpiv1
    · rw [if_neg hpe, if_pos rfl]
      exact hpiv1
  · intro m hm1 hm2
    show vget (vswap w1 (r + 1) iEnd) m ≤ vget v iEnd
    rw [hw m, if_neg (by omega), if_neg (by omega), ← hpiv1]
    exact PL1 m hm1 (by omega)
  · intro m hm1 hm2
    show vget v iEnd < vget (vswap w1 (r + 1) iEnd) m
    rw [hw m]
    by_cases hme : m.toNat = iEnd.toNat
    · rw [if_pos hme, ← hpiv1]
      exact PG1 (r + 1) (by omega) (by omega)
    · rw [if_neg hme, if_neg (by omega), ← hpiv1]
      exact PG1 m (by omega) (by omega)
  · show (vslice (vswap w1 (r + 1) iEnd) start iEnd).Perm (vslice v start iEnd)
    refine List.Perm.trans ?_ S1
    exact slice_vswap_perm w1 start iEnd (r + 1) iEnd h0 (by omega) hplen hse
      (le_refl _) hew1
  · intro m hm0 hm
    show vget (vswap w1 (r + 1) iEnd) m = vget v m
    rw [hw m, if_neg (by omega), if_neg (by omega)]
    exact F1 m hm0 (by rcases hm with hm | hm; exact Or.inl hm; exact Or.inr (by omega))

theorem quick_sort_sublist_spec (v : List Int) (start iEnd : Int) :
    0 ≤ start → iEnd < v.length →
    (quick_sort_sublist v start iEnd).length = v.length ∧
    (quick_sort_sublist v start iEnd).Perm v ∧
    (∀ m : Int, 0 ≤ m → (m < start ∨ iEnd < m) →
      vget (quick_sort_sublist v start iEnd) m = vget v m) ∧
    (vslice (quick_sort_sublist v start iEnd) start iEnd).Perm (vslice v start iEnd) ∧
    (∀ a b : Int, start ≤ a → a ≤ b → b ≤ iEnd →
      vget (quick_sort_sublist v start iEnd) a ≤
        vget (quick_sort_sublist v start iEnd) b) := by
  induction v, start, iEnd using quick_sort_sublist.induct with
  | case1 v start iEnd h ih1 ih2 =>
    intro h0 hlen
    rw [quick_sort_sublist, dif_pos h]
    obtain ⟨PL, PP, ⟨PB1, PB2⟩, Ppiv, Pleft, Pright, Pslice, Pframe⟩ :=
      partition_sublist_spec v start iEnd h0 (le_of_lt h) hlen
    obtain ⟨w1, hw1⟩ : ∃ w, (partition_sublist v start iEnd).1 = w := ⟨_, rfl⟩
    obtain ⟨p, hp⟩ : ∃ q, (partition_sublist v start iEnd).2 = q := ⟨_, rfl⟩
    simp only [hw1, hp] at PL PP PB1 PB2 Ppiv Pleft Pright Pslice Pframe ih1 ih2 ⊢
    have hp1len : p - 1 < (w1.length : Int) := by rw [PL]; omega
    obtain ⟨L2, P2, F2, S2, O2⟩ := ih1 h0 hp1len
    obtain ⟨v2, hv2⟩ : ∃ w, quick_sort_sublist w1 start (p - 1) = w := ⟨_, rfl⟩
    simp only [hv2] at L2 P2 F2 S2 O2 ih2 ⊢
    have hv2len : iEnd < (v2.length : Int) := by rw [L2, PL]; omega
    obtain ⟨L3, P3, F3, S3, O3⟩ := ih2 (by omega) hv2len
    obtain ⟨res, hres⟩ : ∃ w, quick_sort_sublist v2 (p + 1) iEnd = w := ⟨_, rfl⟩
    simp only [hres] at L3 P3 F3 S3 O3 ⊢
    have hreslen : res.length = v.length := by rw [L3, L2, PL]
    have hv2piv : vget v2 p = vget v iEnd := by
      rw [F2 p (by omega) (Or.inr (by omega))]
      exact Ppiv
    have hv2right : ∀ m : Int, p < m → m ≤ iEnd → vget v iEnd < vget v2 m := by
      intro m hm1 hm2
      rw [F2 m (by omega) (Or.inr (by omega))]
      exact Pright m hm1 hm2
    have hv2left : ∀ m : Int, start ≤ m → m ≤ p - 1 → vget v2 m ≤ vget v iEnd := by
      refine slice_pred_transfer w1 v2 start (p - 1) (fun x => x ≤ vget v iEnd) S2 h0
        (by rw [L2]; omega) ?_
      intro m hm1 hm2
      exact Pleft m hm1 (by omega)
    have hrespiv : vget res p = vget v iEnd := by
      rw [F3 p (by omega) (Or.inl (by omega))]
      exact hv2piv
    have hresleft : ∀ m : Int, start ≤ m → m ≤ p - 1 → vget res m ≤ vget v iEnd := by
      intro m hm1 hm2
      rw [F3 m (by omega) (Or.inl (by omega))]
      exact hv2left m hm1 hm2
    have hresright : ∀ m : Int, p + 1 ≤ m → m ≤ iEnd → vget v iEnd < vget res m := by
      refine slice_pred_transfer v2 res (p + 1) iEnd (fun x => vget v iEnd < x) S3
        (by omega) (by rw [L3]; omega) ?_
      intro m hm1 hm2
      exact hv2right m (by omega) hm2
    refine ⟨hreslen, ?_, ?_, ?_, ?_⟩
    · exact List.Perm.trans P3 (List.Perm.trans P2 PP)
    · intro m hm0 hm
      rw [F3 m hm0 (by rcases hm with hm | hm; exact Or.inl (by omega); exact Or.inr hm),
        F2 m hm0 (by rcases hm with hm | hm; exact Or.inl hm; exact Or.inr (by omega)),
        Pframe m hm0 hm]
    · have hpp : p - 1 + 1 = p := by omega
      have hs1 : vslice res start iEnd =
          vslice res start (p - 1) ++ vslice res p iEnd := by
        have hx := slice_split res start (p - 1) iEnd h0 (by omega) (by omega)
        rwa [hpp] at hx
      have hs2 : vslice res p iEnd = vslice res p p ++ vslice res (p + 1) iEnd := by
        exact slice_split res p p iEnd (by omega) (by omega) PB2
      have hw1s : vslice w1 start iEnd =
          vslice w1 start (p - 1) ++ (vslice w1 p p ++ vslice w1 (p + 1) iEnd) := by
        rw [← slice_split w1 p p iEnd (by omega) (by omega) PB2]
        have hx := slice_split w1 start (p - 1) iEnd h0 (by omega) (by omega)
        rwa [hpp] at hx
      have hA : vslice res start (p - 1) = vslice v2 start (p - 1) := by
        refine slice_congr v2 res start (p - 1) h0 L3 ?_
        intro m hm1 hm2
        exact F3 m (by omega) (Or.inl (by omega))
      have hB : vslice res p p = vslice w1 p p := by
        rw [slice_single res p (by omega) (by rw [hreslen]; omega),
          slice_single w1 p (by omega) (by rw [PL]; omega), hrespiv, Ppiv]
      have hC : vslice v2 (p + 1) iEnd = vslice w1 (p + 1) iEnd := by
        refine slice_congr w1 v2 (p + 1) iEnd (by omega) (by rw [L2]) ?_
        intro m hm1 hm2
        exact F2 m (by omega) (Or.inr (by omega))
      rw [hs1, hs2, hA, hB]
      refine List.Perm.trans ?_ Pslice
      rw [hw1s]
      refine List.Perm.append S2 (List.Perm.append (List.Perm.refl _) ?_)
      refine List.Perm.trans S3 ?_
      rw [hC]
    · intro a b ha hab hbe
      by_cases hbp : b ≤ p - 1
      · rw [F3 a (by omega) (Or.inl (by omega)), F3 b (by omega) (Or.inl (by omega))]
        exact O2 a b ha hab hbp
      · by_cases hap : p + 1 ≤ a
        · exact O3 a b hap hab hbe
        · have h1 : vget res a ≤ vget v iEnd := by
            rcases eq_or_lt_of_le (by omega : a ≤ p) with rfl | halt
            · rw [hrespiv]
            · exact hresleft a ha (by omega)
          have h2 : vget v iEnd ≤ vget res b := by
            rcases eq_or_lt_of_le (by omega : p ≤ b) with rfl | hblt
            · rw [hrespiv]
            · exact le_of_lt (hresright b (by omega) hbe)
          exact le_trans h1 h2
  | case2 v start iEnd h =>
    intro h0 hlen
    rw [quick_sort_sublist, dif_neg h]
    refine ⟨rfl, List.Perm.refl v, fun m _ _ => rfl, List.Perm.refl _, ?_⟩
    intro a b ha hab hbe
    have : a = b := by omega
    rw [this]

theorem quick_sort_perm (v : List Int) : (quick_sort v).Perm v :=
  (quick_sort_sublist_spec v 0 ((v.length : Int) - 1) (le_refl 0) (by omega)).2.1

theorem quick_sort_sorted (v : List Int) : (quick_sort v).Sorted (· ≤ ·) := by
  obtain ⟨L, P, F, S, O⟩ :=
    quick_sort_sublist_spec v 0 ((v.length : Int) - 1) (le_refl 0) (by omega)
  apply sorted_of_vget
  intro a b ha hab hb
  refine O a b ha hab ?_
  rw [show (quick_sort v).length = v.length from L] at hb
  omega

theorem length_quick_sort (v : List Int) : (quick_sort v).length = v.length :=
  (quick_sort_sublist_spec v 0 ((v.length : Int) - 1) (le_refl 0) (by omega)).1

/-! ## Merge sort (src/sortcomparer.cc, `merge_sort` lines 341-344,
`merge_sort_sublist` lines 350-360, `merge_sublists` lines 367-409)

`merge_sublists` first copies `v[start..middle]` and `v[middle+1..end]`
into the temporaries `left_sublist`/`right_sublist` (the two `for` copy
loops produce exactly `vslice v start middle` and
`vslice v (middle+1) iEnd`), then runs the main merging `while` loop
(`mergeMain`) followed by the two drain loops (`copyFrom`, threading the
running indices `i`, `j`, `k`). `mergeFn` is the standard functional
merge those loops compute. -/

def mergeMain (v : List Int) (L R : List Int) (i j k : Nat) : List Int × Nat × Nat × Nat :=
  if h : i < L.length ∧ j < R.length then
    if vgetN L i ≤ vgetN R j
    then mergeMain (v.set k (vgetN L i)) L R (i + 1) j (k + 1)
    else mergeMain (v.set k (vgetN R j)) L R i (j + 1) (k + 1)
  else (v, i, j, k)
termination_by (L.length - i) + (R.length - j)
decreasing_by
  · omega
  · omega

def copyFrom (v : List Int) (A : List Int) (i k : Nat) : List Int × Nat × Nat :=
  if i < A.length then copyFrom (v.set k (vgetN A i)) A (i + 1) (k + 1) else (v, i, k)
termination_by A.length - i

def mergeTail (v1 : List Int) (L R : List Int) (i1 j1 k1 : Nat) : List Int :=
  (copyFrom (copyFrom v1 L i1 k1).1 R j1 (copyFrom v1 L i1 k1).2.2).1

def merge_sublists (v : List Int) (start middle iEnd : Int) : List Int :=
  mergeTail (mergeMain v (vslice v start middle) (vslice v (middle + 1) iEnd) 0 0 start.toNat).1
    (vslice v start middle) (vslice v (middle + 1) iEnd)
    (mergeMain v (vslice v start middle) (vslice v (middle + 1) iEnd) 0 0 start.toNat).2.1
    (mergeMain v (vslice v start middle) (vslice v (middle + 1) iEnd) 0 0 start.toNat).2.2.1
    (mergeMain v (vslice v start middle) (vslice v (middle + 1) iEnd) 0 0 start.toNat).2.2.2

def merge_sort_sublist (v : List Int) (start iEnd : Int) : List Int :=
  if h : start < iEnd then
    merge_sublists
      (merge_sort_sublist (merge_sort_sublist v start (start + (iEnd - start) / 2))
        (start + (iEnd - start) / 2 + 1) iEnd)
      start (start + (iEnd - start) / 2) iEnd
  else v
termination_by (iEnd - start + 1).toNat
decreasing_by
  · omega
  · omega

def merge_sort (v : List Int) : List Int := merge_sort_sublist v 0 ((v.length : Int) - 1)

/-- The functional merge computed by the three loops of `merge_sublists`. -/
def mergeFn : List Int → List Int → List Int
  | [], ys => ys
  | x :: xs, [] => x :: xs
  | x :: xs, y :: ys =>
    if x ≤ y then x :: mergeFn xs (y :: ys) else y :: mergeFn (x :: xs) ys
termination_by xs ys => xs.length + ys.length

/-- Sequential writes `v[k] = xs[0]; v[k+1] = xs[1]; ...`. -/
def writeSeq (v : List Int) (k : Nat) : List Int → List Int
  | [] => v
  | x :: xs => writeSeq (v.set k x) (k + 1) xs

theorem mergeFn_nil_right (xs : List Int) : mergeFn xs [] = xs := by
  cases xs with
  | nil => rw [mergeFn]
  | cons x t => rw [mergeFn]

theorem mergeFn_perm (xs ys : List Int) : (mergeFn xs ys).Perm (xs ++ ys) := by
  induction xs, ys using mergeFn.induct with
  | case1 ys => simp [mergeFn]
  | case2 x t => simp [mergeFn]
  | case3 x t y u hle ih =>
    rw [mergeFn, if_pos hle]
    exact List.Perm.cons x ih
  | case4 x t y u hle ih =>
    rw [mergeFn, if_neg hle]
    refine List.Perm.trans (List.Perm.cons y ih) ?_
    exact List.perm_middle.symm

theorem mergeFn_sorted (xs ys : List Int) (hx : xs.Sorted (· ≤ ·))
    (hy : ys.Sorted (· ≤ ·)) : (mergeFn xs ys).Sorted (· ≤ ·) := by
  induction xs, ys using mergeFn.induct with
  | case1 ys => rw [mergeFn]; exact hy
  | case2 x t => rw [mergeFn]; exact hx
  | case3 x t y u hle ih =>
    rw [mergeFn, if_pos hle]
    rw [List.sorted_cons] at hx ⊢
    refine ⟨?_, ih hx.2 hy⟩
    intro b hb
    have hb' : b ∈ t ++ y :: u := (mergeFn_perm t (y :: u)).mem_iff.mp hb
    rw [List.mem_append] at hb'
    rcases hb' with hb' | hb'
    · exact hx.1 b hb'
    · rw [List.mem_cons] at hb'
      rcases hb' with rfl | hb'
      · exact hle
      · rw [List.sorted_cons] at hy
        exact le_trans hle (hy.1 b hb')
  | case4 x t y u hle ih =>
    rw [mergeFn, if_neg hle]
    rw [List.sorted_cons] at hy ⊢
    have hyx : y ≤ x := le_of_lt (not_le.mp hle)
    refine ⟨?_, ih hx hy.2⟩
    intro b hb
    have hb' : b ∈ (x :: t) ++ u := (mergeFn_perm (x :: t) u).mem_iff.mp hb
    rw [List.mem_append] at hb'
    rcases hb' with hb' | hb'
    · rw [List.mem_cons] at hb'
      rcases hb' with rfl | hb'
      · exact hyx
      · rw [List.sorted_cons] at hx
        exact le_trans hyx (hx.1 b hb')
    · exact hy.1 b hb'

theorem mergeFn_length (xs ys : List Int) :
    (mergeFn xs ys).length = xs.length + ys.length := by
  have := (mergeFn_perm xs ys).length_eq
  simpa using this

theorem drop_eq_vgetN_cons (A : List Int) (i : Nat) (h : i < A.length) :
    A.drop i = vgetN A i :: A.drop (i + 1) := by
  induction A generalizing i with
  | nil => simp at h
  | cons a t ih =>
    cases i with
    | zero => rfl
    | succ n =>
      show t.drop n = _
      exact ih n (by simpa using h)

theorem copyFrom_fst (A : List Int) : ∀ (v : List Int) (i k : Nat),
    (copyFrom v A i k).1 = writeSeq v k (A.drop i) := by
  intro v i k
  induction v, A, i, k using copyFrom.induct with
  | case1 v A i k h ih =>
    rw [copyFrom, if_pos h, ih, drop_eq_vgetN_cons A i h]
    rfl
  | case2 v A i k h =>
    rw [copyFrom, if_neg h, List.drop_eq_nil_of_le (by omega)]
    rfl

theorem copyFrom_k (A : List Int) : ∀ (v : List Int) (i k : Nat),
    (copyFrom v A i k).2.2 = k + (A.length - i) := by
  intro v i k
  induction v, A, i, k using copyFrom.induct with
  | case1 v A i k h ih =>
    rw [copyFrom, if_pos h, ih]
    omega
  | case2 v A i k h =>
    rw [copyFrom, if_neg h]
    show k = k + (A.length - i)
    omega

theorem mergeTail_eq (v : List Int) (L R : List Int) (i j k : Nat) :
    mergeTail v L R i j k =
      writeSeq (writeSeq v k (L.drop i)) (k + (L.length - i)) (R.drop j) := by
  unfold mergeTail
  rw [copyFrom_fst, copyFrom_fst, copyFrom_k]

theorem mergeRun_eq (L R : List Int) : ∀ (v : List Int) (i j k : Nat),
    mergeTail (mergeMain v L R i j k).1 L R (mergeMain v L R i j k).2.1
      (mergeMain v L R i j k).2.2.1 (mergeMain v L R i j k).2.2.2
    = writeSeq v k (mergeFn (L.drop i) (R.drop j)) := by
  intro v i j k
  induction v, L, R, i, j, k using mergeMain.induct with
  | case1 v L R i j k h hle ih =>
    rw [mergeMain, dif_pos h, if_pos hle]
    rw [ih, drop_eq_vgetN_cons L i h.1, drop_eq_vgetN_cons R j h.2, mergeFn,
      if_pos hle]
    rfl
  | case2 v L R i j k h hle ih =>
    rw [mergeMain, dif_pos h, if_neg hle]
    rw [ih, drop_eq_vgetN_cons L i h.1, drop_eq_vgetN_cons R j h.2, mergeFn,
      if_neg hle]
    rfl
  | case3 v L R i j k h =>
    rw [mergeMain, dif_neg h]
    show mergeTail v L R i j k = _
    rw [mergeTail_eq]
    rcases not_and_or.mp h with hL | hR
    · rw [List.drop_eq_nil_of_le (by omega : L.length ≤ i)]
      show writeSeq v (k + (L.length - i)) (R.drop j) = _
      have heq : k + (L.length - i) = k := by omega
      rw [heq, mergeFn]
    · rw [List.drop_eq_nil_of_le (by omega : R.length ≤ j), mergeFn_nil_right]
      rfl

theorem vgetN_append_left (A B : List Int) (m : Nat) (h : m < A.length) :
    vgetN (A ++ B) m = vgetN A m := by
  induction A generalizing m with
  | nil => simp at h
  | cons a t ih =>
    cases m with
    | zero => rfl
    | succ n => exact ih n (by simpa using h)

theorem vgetN_append_right (A B : List Int) (m : Nat) :
    vgetN (A ++ B) (A.length + m) = vgetN B m := by
  induction A with
  | nil => rw [List.nil_append, List.length_nil, Nat.zero_add]
  | cons a t ih =>
    have heq : (a :: t).length + m = (t.length + m) + 1 := by
      simp
      omega
    rw [heq]
    show vgetN (t ++ B) (t.length + m) = vgetN B m
    exact ih

theorem take_set_succ (v : List Int) (k : Nat) (x : Int) (h : k < v.length) :
    (v.set k x).take (k + 1) = v.take k ++ [x] := by
  induction v generalizing k with
  | nil => simp at h
  | cons a t ih =>
    cases k with
    | zero => rfl
    | succ n =>
      show a :: (t.set n x).take (n + 1) = a :: (t.take n ++ [x])
      rw [ih n (by simpa using h)]

theorem drop_set_gt (v : List Int) (k m : Nat) (x : Int) (h : k < m) :
    (v.set k x).drop m = v.drop m := by
  induction v generalizing k m with
  | nil => rfl
  | cons a t ih =>
    cases k with
    | zero =>
      cases m with
      | zero => omega
      | succ n => rfl
    | succ n =>
      cases m with
      | zero => omega
      | succ n' =>
        show (t.set n x).drop n' = t.drop n'
        exact ih n n' (by omega)

theorem writeSeq_eq (xs : List Int) : ∀ (v : List Int) (k : Nat),
    k + xs.length ≤ v.length →
    writeSeq v k xs = v.take k ++ xs ++ v.drop (k + xs.length) := by
  induction xs with
  | nil =>
    intro v k h
    show v = v.take k ++ [] ++ v.drop (k + 0)
    rw [List.append_nil, Nat.add_zero, List.take_append_drop]
  | cons x xs ih =>
    intro v k h
    show writeSeq (v.set k x) (k + 1) xs = _
    have hk : k < v.length := by
      have := h
      simp at this
      omega
    rw [ih (v.set k x) (k + 1) (by rw [List.length_set]; simp at h ⊢; omega)]
    rw [take_set_succ v k x hk, drop_set_gt v k (k + 1 + xs.length) x (by omega)]
    have heq : k + 1 + xs.length = k + (x :: xs).length := by simp; omega
    rw [heq]
    simp

theorem vgetN_patch (v mid : List Int) (k : Nat) (hk : k + mid.length ≤ v.length)
    (m : Nat) :
    vgetN (v.take k ++ mid ++ v.drop (k + mid.length)) m =
      if m < k then vgetN v m
      else if m < k + mid.length then vgetN mid (m - k) else vgetN v m := by
  have hkt : (v.take k).length = k := by
    rw [List.length_take]
    omega
  by_cases h1 : m < k
  · rw [if_pos h1, List.append_assoc, vgetN_append_left _ _ m (by omega),
      vgetN_take v k m h1]
  · rw [if_neg h1]
    have h3 := vgetN_append_right (v.take k) (mid ++ v.drop (k + mid.length)) (m - k)
    rw [hkt, (by omega : k + (m - k) = m)] at h3
    rw [List.append_assoc, h3]
    by_cases h2 : m < k + mid.length
    · rw [if_pos h2, vgetN_append_left _ _ _ (by omega)]
    · rw [if_neg h2]
      have h4 := vgetN_append_right mid (v.drop (k + mid.length)) (m - k - mid.length)
      rw [(by omega : mid.length + (m - k - mid.length) = m - k)] at h4
      rw [h4, vgetN_drop]
      congr 1
      omega

theorem length_patch (v mid : List Int) (k : Nat) (hk : k + mid.length ≤ v.length) :
    (v.take k ++ mid ++ v.drop (k + mid.length)).length = v.length := by
  simp
  omega

theorem merge_sublists_eq (v : List Int) (start middle iEnd : Int)
    (h0 : 0 ≤ start) (h1 : start ≤ middle) (h2 : middle < iEnd)
    (h3 : iEnd < v.length) :
    merge_sublists v start middle iEnd =
      v.take start.toNat ++
        mergeFn (vslice v start middle) (vslice v (middle + 1) iEnd) ++
        v.drop ((iEnd + 1).toNat) := by
  unfold merge_sublists
  rw [mergeRun_eq]
  rw [List.drop_zero, List.drop_zero]
  have hlenL : (vslice v start middle).length = (middle + 1 - start).toNat := by
    rw [length_slice]
    omega
  have hlenR : (vslice v (middle + 1) iEnd).length = (iEnd - middle).toNat := by
    rw [length_slice]
    omega
  have hlenM : (mergeFn (vslice v start middle) (vslice v (middle + 1) iEnd)).length =
      (iEnd + 1 - start).toNat := by
    rw [mergeFn_length, hlenL, hlenR]
    omega
  rw [writeSeq_eq _ v start.toNat (by rw [hlenM]; omega)]
  congr 1
  congr 1
  omega

theorem vslice_sorted_of_region (v : List Int) (a b : Int) (h0 : 0 ≤ a)
    (h : ∀ x y : Int, a ≤ x → x ≤ y → y ≤ b → vget v x ≤ vget v y) :
    (vslice v a b).Sorted (· ≤ ·) := by
  rw [List.Sorted, List.pairwise_iff_getElem]
  intro x y hx hy hxy
  rw [vgetN_getElem _ _ hx, vgetN_getElem _ _ hy]
  rw [length_slice] at hx hy
  rw [vgetN_slice v a b x (by omega), vgetN_slice v a b y (by omega)]
  have := h (a + x) (a + y) (by omega) (by omega) (by omega)
  unfold vget at this
  have e1 : (a + (x : Int)).toNat = a.toNat + x := by omega
  have e2 : (a + (y : Int)).toNat = a.toNat + y := by omega
  rw [e1, e2] at this
  exact this

theorem region_sorted_of_vslice (v : List Int) (a b : Int) (h0 : 0 ≤ a)
    (hb : b < v.length) (h : (vslice v a b).Sorted (· ≤ ·)) :
    ∀ x y : Int, a ≤ x → x ≤ y → y ≤ b → vget v x ≤ vget v y := by
  intro x y hx hxy hyb
  rcases eq_or_lt_of_le hxy with rfl | hlt
  · exact le_refl _
  · rw [List.Sorted, List.pairwise_iff_getElem] at h
    have hlen : (vslice v a b).length = (b + 1 - a).toNat := by
      rw [length_slice]
      omega
    have hx' : (x - a).toNat < (vslice v a b).length := by rw [hlen]; omega
    have hy' : (y - a).toNat < (vslice v a b).length := by rw [hlen]; omega
    have := h (x - a).toNat (y - a).toNat hx' hy' (by omega)
    rw [vgetN_getElem _ _ hx', vgetN_getElem _ _ hy',
      vgetN_slice v a b _ (by omega), vgetN_slice v a b _ (by omega)] at this
    unfold vget
    have e1 : x.toNat = a.toNat + (x - a).toNat := by omega
    have e2 : y.toNat = a.toNat + (y - a).toNat := by omega
    rw [e1, e2]
    exact this

theorem merge_sort_sublist_spec (v : List Int) (start iEnd : Int) :
    0 ≤ start → iEnd < v.length →
    (merge_sort_sublist v start iEnd).length = v.length ∧
    (merge_sort_sublist v start iEnd).Perm v ∧
    (∀ m : Int, 0 ≤ m → (m < start ∨ iEnd < m) →
      vget (merge_sort_sublist v start iEnd) m = vget v m) ∧
    (vslice (merge_sort_sublist v start iEnd) start iEnd).Perm (vslice v start iEnd) ∧
    (∀ a b : Int, start ≤ a → a ≤ b → b ≤ iEnd →
      vget (merge_sort_sublist v start iEnd) a ≤
        vget (merge_sort_sublist v start iEnd) b) := by
  induction v, start, iEnd using merge_sort_sublist.induct with
  | case1 v start iEnd h ih1 ih2 =>
    intro h0 hlen
    rw [merge_sort_sublist, dif_pos h]
    obtain ⟨mid, hmid⟩ : ∃ m, start + (iEnd - start) / 2 = m := ⟨_, rfl⟩
    simp only [hmid] at ih1 ih2 ⊢
    have hmb1 : start ≤ mid := by omega
    have hmb2 : mid < iEnd := by omega
    obtain ⟨L1, P1, F1, S1, O1⟩ := ih1 h0 (by omega)
    obtain ⟨v1, hv1⟩ : ∃ w, merge_sort_sublist v start mid = w := ⟨_, rfl⟩
    simp only [hv1] at L1 P1 F1 S1 O1 ih2 ⊢
    obtain ⟨L2, P2, F2, S2, O2⟩ := ih2 (by omega) (by rw [L1]; omega)
    obtain ⟨v2, hv2⟩ : ∃ w, merge_sort_sublist v1 (mid + 1) iEnd = w := ⟨_, rfl⟩
    simp only [hv2] at L2 P2 F2 S2 O2 ⊢
    have hlen2 : v2.length = v.length := by rw [L2, L1]
    have hml := merge_sublists_eq v2 start mid iEnd h0 (by omega) (by omega)
      (by rw [hlen2]; omega)
    have hLlen : (vslice v2 start mid).length = (mid + 1 - start).toNat := by
      rw [length_slice]
      omega
    have hRlen : (vslice v2 (mid + 1) iEnd).length = (iEnd - mid).toNat := by
      rw [length_slice]
      omega
    have hMlen : (mergeFn (vslice v2 start mid) (vslice v2 (mid + 1) iEnd)).length =
        (iEnd + 1 - start).toNat := by
      rw [mergeFn_length, hLlen, hRlen]
      omega
    have hidx : (iEnd + 1).toNat = start.toNat +
        (mergeFn (vslice v2 start mid) (vslice v2 (mid + 1) iEnd)).length := by
      rw [hMlen]
      omega
    have hml2 : merge_sublists v2 start mid iEnd =
        v2.take start.toNat ++
          mergeFn (vslice v2 start mid) (vslice v2 (mid + 1) iEnd) ++
          v2.drop (start.toNat +
            (mergeFn (vslice v2 start mid) (vslice v2 (mid + 1) iEnd)).length) := by
      rw [hml, hidx]
    have hkbound : start.toNat +
        (mergeFn (vslice v2 start mid) (vslice v2 (mid + 1) iEnd)).length ≤
          v2.length := by
      rw [hMlen, hlen2]
      omega
    have hres_get : ∀ m : Nat, vgetN (merge_sublists v2 start mid iEnd) m =
        if m < start.toNat then vgetN v2 m
        else if m < start.toNat +
            (mergeFn (vslice v2 start mid) (vslice v2 (mid + 1) iEnd)).length then
          vgetN (mergeFn (vslice v2 start mid) (vslice v2 (mid + 1) iEnd)) (m - start.toNat)
        else vgetN v2 m := by
      intro m
      rw [hml2]
      exact vgetN_patch v2 _ start.toNat hkbound m
    have hres_len : (merge_sublists v2 start mid iEnd).length = v.length := by
      rw [hml2, length_patch v2 _ start.toNat hkbound, hlen2]
    have hfr2 : ∀ m : Int, 0 ≤ m → (m < start ∨ iEnd < m) →
        vget v2 m = vget v m := by
      intro m hm0 hm
      rw [F2 m hm0 (by rcases hm with hm | hm; exact Or.inl (by omega); exact Or.inr hm),
        F1 m hm0 (by rcases hm with hm | hm; exact Or.inl hm; exact Or.inr (by omega))]
    have hLs : vslice v2 start mid = vslice v1 start mid := by
      refine slice_congr v1 v2 start mid h0 L2 ?_
      intro m hm1 hm2
      exact F2 m (by omega) (Or.inl (by omega))
    have hLperm : (vslice v2 start mid).Perm (vslice v start mid) := by
      rw [hLs]
      exact S1
    have hRv1 : vslice v1 (mid + 1) iEnd = vslice v (mid + 1) iEnd := by
      refine slice_congr v v1 (mid + 1) iEnd (by omega) L1 ?_
      intro m hm1 hm2
      exact F1 m (by omega) (Or.inr (by omega))
    have hRperm : (vslice v2 (mid + 1) iEnd).Perm (vslice v (mid + 1) iEnd) := by
      refine List.Perm.trans S2 ?_
      rw [hRv1]
    have hLsorted : (vslice v2 start mid).Sorted (· ≤ ·) := by
      refine vslice_sorted_of_region v2 start mid h0 ?_
      intro x y hx hxy hyb
      rw [F2 x (by omega) (Or.inl (by omega)), F2 y (by omega) (Or.inl (by omega))]
      exact O1 x y hx hxy hyb
    have hRsorted : (vslice v2 (mid + 1) iEnd).Sorted (· ≤ ·) :=
      vslice_sorted_of_region v2 (mid + 1) iEnd (by omega) O2
    have hMsorted := mergeFn_sorted _ _ hLsorted hRsorted
    have hres_slice : vslice (merge_sublists v2 start mid iEnd) start iEnd =
        mergeFn (vslice v2 start mid) (vslice v2 (mid + 1) iEnd) := by
      apply List.ext_getElem
      · rw [length_slice, hres_len, hMlen]
        omega
      · intro k hk1 hk2
        have hk' : k < (iEnd + 1 - start).toNat := by
          rw [length_slice, hres_len] at hk1
          omega
        rw [vgetN_getElem _ _ hk1, vgetN_getElem _ _ hk2,
          vgetN_slice _ start iEnd k hk', hres_get (start.toNat + k),
          if_neg (by omega), if_pos (by rw [hMlen]; omega)]
        congr 1
        omega
    refine ⟨hres_len, ?_, ?_, ?_, ?_⟩
    · have hv2split : v2.drop start.toNat =
          vslice v2 start iEnd ++ v2.drop ((iEnd + 1).toNat) := by
        have hdd : v2.drop ((iEnd + 1).toNat) =
            (v2.drop start.toNat).drop ((iEnd + 1 - start).toNat) := by
          rw [List.drop_drop]
          congr 1
          omega
        rw [hdd]
        exact (List.take_append_drop _ _).symm
      have hperm_mid : (mergeFn (vslice v2 start mid)
          (vslice v2 (mid + 1) iEnd)).Perm (vslice v2 start iEnd) := by
        refine List.Perm.trans (mergeFn_perm _ _) ?_
        rw [slice_split v2 start mid iEnd h0 (by omega) (by omega)]
      have hgoal : (merge_sublists v2 start mid iEnd).Perm v2 := by
        rw [hml]
        conv_rhs => rw [← List.take_append_drop start.toNat v2, hv2split,
          ← List.append_assoc]
        exact List.Perm.append (List.Perm.append (List.Perm.refl _) hperm_mid)
          (List.Perm.refl _)
      exact hgoal.trans (List.Perm.trans P2 P1)
    · intro m hm0 hm
      have hget := hres_get m.toNat
      unfold vget
      rcases hm with hm | hm
      · rw [hget, if_pos (by omega)]
        have := hfr2 m hm0 (Or.inl hm)
        unfold vget at this
        exact this
      · rw [hget, if_neg (by omega), if_neg (by rw [hMlen]; omega)]
        have := hfr2 m hm0 (Or.inr hm)
        unfold vget at this
        exact this
    · rw [hres_slice]
      refine List.Perm.trans (mergeFn_perm _ _) ?_
      rw [slice_split v start mid iEnd h0 (by omega) (by omega)]
      exact List.Perm.append hLperm hRperm
    · refine region_sorted_of_vslice _ start iEnd h0 (by rw [hres_len]; omega) ?_
      rw [hres_slice]
      exact hMsorted
  | case2 v start iEnd h =>
    intro h0 hlen
    rw [merge_sort_sublist, dif_neg h]
    refine ⟨rfl, List.Perm.refl v, fun m _ _ => rfl, List.Perm.refl _, ?_⟩
    intro a b ha hab hbe
    have : a = b := by omega
    rw [this]

theorem merge_sort_perm (v : List Int) : (merge_sort v).Perm v :=
  (merge_sort_sublist_spec v 0 ((v.length : Int) - 1) (le_refl 0) (by omega)).2.1

theorem merge_sort_sorted (v : List Int) : (merge_sort v).Sorted (· ≤ ·) := by
  obtain ⟨L, P, F, S, O⟩ :=
    merge_sort_sublist_spec v 0 ((v.length : Int) - 1) (le_refl 0) (by omega)
  apply sorted_of_vget
  intro a b ha hab hb
  refine O a b ha hab ?_
  rw [show (merge_sort v).length = v.length from L] at hb
  omega

theorem length_merge_sort (v : List Int) : (merge_sort v).length = v.length :=
  (merge_sort_sublist_spec v 0 ((v.length : Int) - 1) (le_refl 0) (by omega)).1

/-! ## Dataset reader (src/sortcomparer.cc, `read_in_datasets`, lines 170-214)

Standard input is modelled as the list of its newline-terminated lines
(each a `List Char`); `std::getline` then yields successive lines, and
`cin.eof()` holds exactly when the list is exhausted. One line is parsed
by the `while (ss >> elem || !ss.eof())` loop: each `ss >> elem` skips
`isspace` characters, then consumes an optional sign and a maximal run
of digits (C++ stream semantics: on failure the characters already
consumed are not put back). The attempt fails when no digits were
consumed or when the digit run's value does not fit in `int`
(-2147483648..2147483647). A failed attempt whose consumption reached
the end of the line (sign or digits running to the line's end, or the
initial whitespace skip doing so) has set `eofbit`, so the loop exits
silently; a failed attempt stopping strictly inside the line is
reported (the error list records the 1-based `position`), after which
`ss.clear(); ss >> temp` skips whitespace from the current point and
discards characters up to the next whitespace. Successful values fit
in `int` and are carried as the equal unbounded `Int`. -/

def isWsChar (c : Char) : Bool :=
  c = ' ' || c = '\t' || c = '\n' || c = '\x0b' || c = '\x0c' || c = '\r'

def dropWs (cs : List Char) : List Char := cs.dropWhile isWsChar

def digitsToInt (acc : Int) : List Char → Int
  | [] => acc
  | c :: cs => digitsToInt (10 * acc + ((c.toNat : Int) - 48)) cs

inductive ExtractResult
  | ok (val : Int) (rest : List Char)
  | failEof
  | failBad (rest : List Char)

def intMin : Int := -2147483648

def intMax : Int := 2147483647

def signedVal (neg : Bool) (digits : List Char) : Int :=
  if neg then -(digitsToInt 0 digits) else digitsToInt 0 digits

/-- The extraction after the optional sign: `body` is the rest of the line,
`neg` records a consumed '-'. No digits, or a value out of `int` range,
fail; a failure whose consumption reached the end of the line is
`failEof` (`eofbit`), otherwise `failBad` with the unconsumed rest. -/
def extractDigits (neg : Bool) (body : List Char) : ExtractResult :=
  if body.takeWhile Char.isDigit = [] then
    if body = [] then .failEof else .failBad body
  else
    if signedVal neg (body.takeWhile Char.isDigit) < intMin ∨
        intMax < signedVal neg (body.takeWhile Char.isDigit) then
      if body.dropWhile Char.isDigit = [] then .failEof
      else .failBad (body.dropWhile Char.isDigit)
    else .ok (signedVal neg (body.takeWhile Char.isDigit)) (body.dropWhile Char.isDigit)

/-- One `ss >> elem` attempt on the remaining characters. -/
def extractInt (cs : List Char) : ExtractResult :=
  match dropWs cs with
  | [] => .failEof
  | c :: cs' =>
    if c = '-' then extractDigits true cs'
    else if c = '+' then extractDigits false cs'
    else extractDigits false (c :: cs')

theorem length_dropWhile_le' (p : Char → Bool) (l : List Char) :
    (l.dropWhile p).length ≤ l.length := by
  induction l with
  | nil => exact le_refl _
  | cons a t ih =>
    rw [List.dropWhile_cons]
    split
    · simp only [List.length_cons]
      omega
    · exact le_refl _

theorem dropWhile_head_false (p : Char → Bool) (l : List Char) (c : Char)
    (t : List Char) (h : l.dropWhile p = c :: t) : p c = false := by
  induction l with
  | nil => simp [List.dropWhile] at h
  | cons a l' ih =>
    rw [List.dropWhile_cons] at h
    by_cases hp : p a
    · rw [if_pos hp] at h
      exact ih h
    · rw [if_neg hp] at h
      rw [List.cons.injEq] at h
      rw [← h.1]
      simp [hp]

theorem dropWhile_lt_of_takeWhile_ne (p : Char → Bool) (l : List Char)
    (h : l.takeWhile p ≠ []) : (l.dropWhile p).length < l.length := by
  cases l with
  | nil => exact absurd rfl h
  | cons a t =>
    rw [List.takeWhile_cons] at h
    by_cases hp : p a
    · rw [List.dropWhile_cons, if_pos hp]
      have := length_dropWhile_le' p t
      simp only [List.length_cons]
      omega
    · rw [if_neg hp] at h
      exact absurd rfl h

theorem extractDigits_ok_len (neg : Bool) (body rest : List Char) (val : Int)
    (h : extractDigits neg body = .ok val rest) : rest.length < body.length := by
  unfold extractDigits at h
  split at h
  · split at h <;> simp at h
  · rename_i htw
    split at h
    · split at h <;> simp at h
    · rw [ExtractResult.ok.injEq] at h
      rw [← h.2]
      exact dropWhile_lt_of_takeWhile_ne Char.isDigit body htw

theorem extractDigits_bad_len (neg : Bool) (body rest : List Char)
    (h : extractDigits neg body = .failBad rest) :
    rest = body ∨ rest.length < body.length := by
  unfold extractDigits at h
  split at h
  · split at h
    · simp at h
    · rw [ExtractResult.failBad.injEq] at h
      exact Or.inl h.symm
  · rename_i htw
    split at h
    · split at h
      · simp at h
      · rw [ExtractResult.failBad.injEq] at h
        refine Or.inr ?_
        rw [← h]
        exact dropWhile_lt_of_takeWhile_ne Char.isDigit body htw
    · simp at h

theorem extractInt_ok_len (cs rest : List Char) (val : Int)
    (h : extractInt cs = .ok val rest) : rest.length < cs.length := by
  have hlen0 : (dropWs cs).length ≤ cs.length := length_dropWhile_le' isWsChar cs
  unfold extractInt at h
  split at h
  · simp at h
  · rename_i c cs' hdw
    rw [hdw] at hlen0
    simp only [List.length_cons] at hlen0
    split at h
    · have := extractDigits_ok_len true cs' rest val h
      omega
    · split at h
      · have := extractDigits_ok_len false cs' rest val h
        omega
      · have := extractDigits_ok_len false (c :: cs') rest val h
        simp only [List.length_cons] at this
        omega

theorem skip_len_le (r : List Char) :
    ((r.dropWhile isWsChar).dropWhile (fun c => !isWsChar c)).length ≤ r.length := by
  have h1 := length_dropWhile_le' (fun c => !isWsChar c) (r.dropWhile isWsChar)
  have h2 := length_dropWhile_le' isWsChar r
  omega

theorem extractInt_bad_len (cs rest : List Char)
    (h : extractInt cs = .failBad rest) :
    ((rest.dropWhile isWsChar).dropWhile (fun c => !isWsChar c)).length < cs.length := by
  have hlen0 : (dropWs cs).length ≤ cs.length := length_dropWhile_le' isWsChar cs
  have hskip := skip_len_le rest
  unfold extractInt at h
  split at h
  · simp at h
  · rename_i c cs' hdw
    rw [hdw] at hlen0
    simp only [List.length_cons] at hlen0
    split at h
    · rcases extractDigits_bad_len true cs' rest h with hr | hr
      · subst hr
        omega
      · omega
    · split at h
      · rcases extractDigits_bad_len false cs' rest h with hr | hr
        · subst hr
          omega
        · omega
      · rcases extractDigits_bad_len false (c :: cs') rest h with hr | hr
        · subst hr
          have hws : isWsChar c = false := dropWhile_head_false isWsChar cs c cs' hdw
          rw [List.dropWhile_cons, if_neg (by simp [hws])]
          rw [List.dropWhile_cons, if_pos (by simp [hws])]
          have := length_dropWhile_le' (fun d => !isWsChar d) cs'
          omega
        · simp only [List.length_cons] at hr
          omega

/-- The `while (ss >> elem || !ss.eof())` loop of `read_in_datasets` on one
line: the parsed values and the 1-based positions of failed conversions. -/
def parseLineLoop (cs : List Char) (pos : Nat) : List Int × List Nat :=
  match hres : extractInt cs with
  | .ok val rest =>
    (val :: (parseLineLoop rest (pos + 1)).1, (parseLineLoop rest (pos + 1)).2)
  | .failEof => ([], [])
  | .failBad rest =>
    ((parseLineLoop ((rest.dropWhile isWsChar).dropWhile (fun c => !isWsChar c)) (pos + 1)).1,
      pos :: (parseLineLoop ((rest.dropWhile isWsChar).dropWhile (fun c => !isWsChar c)) (pos + 1)).2)
termination_by cs.length
decreasing_by
  all_goals first
    | exact extractInt_ok_len _ _ _ hres
    | exact extractInt_bad_len _ _ hres

/-- The outer `while (!cin.eof() && !data_str.empty())` loop: datasets and
(line, position) diagnostics. -/
def read_in_datasets (lines : List (List Char)) (linecount : Nat) :
    List (List Int) × List (Nat × Nat) :=
  match lines with
  | [] => ([], [])
  | line :: rest =>
    if line = [] then ([], [])
    else
      ((parseLineLoop line 1).1 :: (read_in_datasets rest (linecount + 1)).1,
        (parseLineLoop line 1).2.map (fun pos => (linecount, pos)) ++
          (read_in_datasets rest (linecount + 1)).2)

theorem parseLineLoop_ok (cs : List Char) (pos : Nat) (val : Int) (rest : List Char)
    (h : extractInt cs = .ok val rest) :
    parseLineLoop cs pos =
      (val :: (parseLineLoop rest (pos + 1)).1, (parseLineLoop rest (pos + 1)).2) := by
  rw [parseLineLoop.eq_def]
  split
  · rename_i val' rest' heq
    rw [h] at heq
    rw [ExtractResult.ok.injEq] at heq
    rw [heq.1, heq.2]
  · rename_i heq
    rw [h] at heq
    simp at heq
  · rename_i rest' heq
    rw [h] at heq
    simp at heq

theorem parseLineLoop_eof (cs : List Char) (pos : Nat)
    (h : extractInt cs = .failEof) : parseLineLoop cs pos = ([], []) := by
  rw [parseLineLoop.eq_def]
  split
  · rename_i val' rest' heq
    rw [h] at heq
    simp at heq
  · rfl
  · rename_i rest' heq
    rw [h] at heq
    simp at heq

theorem parseLineLoop_bad (cs : List Char) (pos : Nat) (rest rest2 : List Char)
    (h : extractInt cs = .failBad rest)
    (h2 : (rest.dropWhile isWsChar).dropWhile (fun c => !isWsChar c) = rest2) :
    parseLineLoop cs pos =
      ((parseLineLoop rest2 (pos + 1)).1,
        pos :: (parseLineLoop rest2 (pos + 1)).2) := by
  rw [parseLineLoop.eq_def]
  split
  · rename_i val' rest' heq
    rw [h] at heq
    simp at heq
  · rename_i heq
    rw [h] at heq
    simp at heq
  · rename_i rest' heq
    rw [h] at heq
    rw [ExtractResult.failBad.injEq] at heq
    rw [← heq, h2]

theorem read_in_datasets_fst (lines : List (List Char)) (lc : Nat) :
    (read_in_datasets lines lc).1 =
      (lines.takeWhile (fun l => !l.isEmpty)).map (fun l => (parseLineLoop l 1).1) := by
  induction lines generalizing lc with
  | nil => rfl
  | cons line rest ih =>
    by_cases h : line = []
    · subst h
      rfl
    · have hne : (!line.isEmpty) = true := by
        cases line with
        | nil => exact absurd rfl h
        | cons a t => rfl
      simp only [read_in_datasets, List.takeWhile_cons, hne, if_true, List.map_cons]
      rw [if_neg h, ih (lc + 1)]

theorem parseLineLoop_line1 :
    parseLineLoop ['1', ' ', '2', ' ', 'x', ' ', '3'] 1 = ([1, 2, 3], [3]) := by
  rw [parseLineLoop_ok ['1', ' ', '2', ' ', 'x', ' ', '3'] 1 1
    [' ', '2', ' ', 'x', ' ', '3'] rfl]
  rw [parseLineLoop_ok [' ', '2', ' ', 'x', ' ', '3'] 2 2 [' ', 'x', ' ', '3'] rfl]
  rw [parseLineLoop_bad [' ', 'x', ' ', '3'] 3 ['x', ' ', '3'] [' ', '3'] rfl rfl]
  rw [parseLineLoop_ok [' ', '3'] 4 3 [] rfl]
  rw [parseLineLoop_eof [] 5 rfl]

theorem read_in_datasets_line1 :
    read_in_datasets [['1', ' ', '2', ' ', 'x', ' ', '3']] 1 = ([[1, 2, 3]], [(1, 3)]) := by
  simp only [read_in_datasets]
  rw [if_neg (by simp), parseLineLoop_line1]
  simp

theorem dropWhile_eq_nil_of_all (p : Char → Bool) (l : List Char)
    (h : l.all p = true) : l.dropWhile p = [] := by
  induction l with
  | nil => rfl
  | cons a t ih =>
    rw [List.all_cons, Bool.and_eq_true] at h
    rw [List.dropWhile_cons, if_pos h.1]
    exact ih h.2

theorem extractInt_ws (line : List Char) (h : line.all isWsChar = true) :
    extractInt line = .failEof := by
  unfold extractInt
  rw [show dropWs line = [] from dropWhile_eq_nil_of_all isWsChar line h]

theorem parseLineLoop_ws (line : List Char) (h : line.all isWsChar = true) :
    parseLineLoop line 1 = ([], []) :=
  parseLineLoop_eof line 1 (extractInt_ws line h)

theorem read_in_datasets_ws_line (line : List Char) (rest : List (List Char)) (lc : Nat)
    (hne : line ≠ []) (hws : line.all isWsChar = true) :
    read_in_datasets (line :: rest) lc =
      ([] :: (read_in_datasets rest (lc + 1)).1, (read_in_datasets rest (lc + 1)).2) := by
  simp only [read_in_datasets]
  rw [if_neg hne, parseLineLoop_ws line hws]
  simp

/-! ## Whitespace-token model of one input line

Modelled from the specification text, NOT from the source: the spec's
reader description says each line "is tokenized on whitespace" and "each
token is parsed as a signed integer", a failing token being "skipped in
its entirety". These definitions follow those words so they can be
compared against `parseLineLoop`, which embeds the actual stream
semantics of `ss >> elem`. -/

def wsTokensAux : List Char → List Char → List (List Char)
  | [], cur => if cur.isEmpty then [] else [cur.reverse]
  | c :: cs, cur =>
    if isWsChar c then
      if cur.isEmpty then wsTokensAux cs [] else cur.reverse :: wsTokensAux cs []
    else wsTokensAux cs (c :: cur)

def wsTokens (cs : List Char) : List (List Char) := wsTokensAux cs []

def parseIntToken (t : List Char) : Option Int :=
  match t with
  | [] => none
  | c :: rest =>
    if c = '-' then
      if rest.isEmpty then none
      else if rest.all Char.isDigit then some (-(digitsToInt 0 rest)) else none
    else if c = '+' then
      if rest.isEmpty then none
      else if rest.all Char.isDigit then some (digitsToInt 0 rest) else none
    else if (c :: rest).all Char.isDigit then some (digitsToInt 0 (c :: rest)) else none

def specLineAux : List (List Char) → Nat → List Int × List Nat
  | [], _ => ([], [])
  | t :: ts, i =>
    match parseIntToken t with
    | some val => (val :: (specLineAux ts (i + 1)).1, (specLineAux ts (i + 1)).2)
    | none => ((specLineAux ts (i + 1)).1, i :: (specLineAux ts (i + 1)).2)

/-- Whole-line reader behaviour as the specification words describe it. -/
def specLineModel (cs : List Char) : List Int × List Nat :=
  specLineAux (wsTokens cs) 1

theorem parseLineLoop_2x : parseLineLoop ['2', 'x'] 1 = ([2], [2]) := by
  rw [parseLineLoop_ok ['2', 'x'] 1 2 ['x'] rfl]
  rw [parseLineLoop_bad ['x'] 2 ['x'] [] rfl rfl]
  rw [parseLineLoop_eof [] 3 rfl]

theorem specLineModel_2x : specLineModel ['2', 'x'] = ([], [1]) := rfl

theorem parseLineLoop_trailing_sign : parseLineLoop ['1', ' ', '-'] 1 = ([1], []) := by
  rw [parseLineLoop_ok ['1', ' ', '-'] 1 1 [' ', '-'] rfl]
  rw [parseLineLoop_eof [' ', '-'] 2 rfl]

theorem parseLineLoop_out_of_range :
    parseLineLoop ['9', '9', '9', '9', '9', '9', '9', '9', '9', '9'] 1 = ([], []) :=
  parseLineLoop_eof ['9', '9', '9', '9', '9', '9', '9', '9', '9', '9'] 1 rfl

theorem parseLineLoop_sign_recovery : parseLineLoop ['-', ' ', '5'] 1 = ([], [1]) := by
  rw [parseLineLoop_bad ['-', ' ', '5'] 1 [' ', '5'] [] rfl rfl]
  rw [parseLineLoop_eof [] 2 rfl]

theorem read_in_datasets_trailing_sign :
    read_in_datasets [['1', ' ', '-']] 1 = ([[1]], []) := by
  simp only [read_in_datasets]
  rw [if_neg (by simp), parseLineLoop_trailing_sign]
  simp

theorem read_in_datasets_out_of_range :
    read_in_datasets [['9', '9', '9', '9', '9', '9', '9', '9', '9', '9']] 1 =
      ([[]], []) := by
  simp only [read_in_datasets]
  rw [if_neg (by simp), parseLineLoop_out_of_range]
  simp

theorem read_in_datasets_sign_recovery :
    read_in_datasets [['-', ' ', '5']] 1 = ([[]], [(1, 1)]) := by
  simp only [read_in_datasets]
  rw [if_neg (by simp), parseLineLoop_sign_recovery]
  simp

/-! ## Benchmark harness (src/sortcomparer.cc, `main`, lines 43-161)

The harness state carries the dataset list, the `total_times` map and the
`result_times` map; the unordered maps are modelled as association lists
in insertion order. Wall-clock timing is not computable, so the duration
measured for one run is an oracle `dur` taking the dataset, the algorithm
name and the algorithm's output. Each `sort_algos` entry pairs a name with
the (by-value) sorting function verified above. -/

structure HarnessState where
  datasets : List (List Int)
  total_times : List (String × Int)
  result_times : List (String × List Int)

def sort_algos : List (String × (List Int → List Int)) :=
  [("Insertion Sort", insertion_sort), ("Selection Sort", selection_sort),
    ("Bubble Sort", bubble_sort), ("Heap Sort", heap_sort),
    ("Merge Sort", merge_sort), ("Quick Sort", quick_sort),
    ("Shell Sort", shell_sort)]

/-- `map.find(key)`, as an association-list lookup. -/
def mfind {α : Type} : List (String × α) → String → Option α
  | [], _ => none
  | (k, v) :: m, q => if k = q then some v else mfind m q

/-- `total_times[algo] = duration` on a missing key, `+= duration` otherwise. -/
def setT : List (String × Int) → String → Int → List (String × Int)
  | [], k, d => [(k, d)]
  | (k', v) :: m, k, d => if k' = k then (k', v + d) :: m else (k', v) :: setT m k d

/-- `result_times[algo].push_back(duration)` (creating the entry if absent). -/
def setR : List (String × List Int) → String → Int → List (String × List Int)
  | [], k, d => [(k, [d])]
  | (k', v) :: m, k, d => if k' = k then (k', v ++ [d]) :: m else (k', v) :: setR m k d

/-- The inner `for (auto iter = sort_algos.begin(); ...)` loop for one dataset. -/
def benchDataset (s r : Bool) (dur : List Int → String → List Int → Int)
    (ds : List Int) (st : HarnessState) : HarnessState :=
  sort_algos.foldl
    (fun st2 p =>
      HarnessState.mk st2.datasets
        (if s then setT st2.total_times p.1 (dur ds p.1 (p.2 ds)) else st2.total_times)
        (if r then setR st2.result_times p.1 (dur ds p.1 (p.2 ds)) else st2.result_times))
    st

/-- State before the outer loop: `result_times[name].reserve(...)` has
materialised an empty entry per algorithm exactly when results are needed. -/
def initState (r : Bool) (dss : List (List Int)) : HarnessState :=
  HarnessState.mk dss []
    (if r then sort_algos.map (fun p => (p.1, ([] : List Int))) else [])

/-- The outer `for (int i = 0; i < num_datasets; ++i)` loop, stopped after `i`
iterations; each iteration reads `datasets[i]` from the state. -/
def benchUpTo (s r : Bool) (dur : List Int → String → List Int → Int)
    (dss : List (List Int)) (i : Nat) : HarnessState :=
  (List.range i).foldl
    (fun st j => benchDataset s r dur (st.datasets.getD j []) st)
    (initState r dss)

def runBench (s r : Bool) (dur : List Int → String → List Int → Int)
    (dss : List (List Int)) : HarnessState :=
  benchUpTo s r dur dss dss.length

theorem benchDataset_datasets (s r : Bool) (dur : List Int → String → List Int → Int)
    (ds : List Int) (st : HarnessState) :
    (benchDataset s r dur ds st).datasets = st.datasets := rfl

theorem benchUpTo_succ (s r : Bool) (dur : List Int → String → List Int → Int)
    (dss : List (List Int)) (i : Nat) :
    benchUpTo s r dur dss (i + 1) =
      benchDataset s r dur ((benchUpTo s r dur dss i).datasets.getD i [])
        (benchUpTo s r dur dss i) := by
  unfold benchUpTo
  rw [List.range_succ, List.foldl_append, List.foldl_cons, List.foldl_nil]

theorem benchUpTo_datasets (s r : Bool) (dur : List Int → String → List Int → Int)
    (dss : List (List Int)) (i : Nat) :
    (benchUpTo s r dur dss i).datasets = dss := by
  induction i with
  | zero => rfl
  | succ n ih => rw [benchUpTo_succ, benchDataset_datasets, ih]

theorem benchDataset_results_false (s : Bool) (dur : List Int → String → List Int → Int)
    (ds : List Int) (st : HarnessState) :
    (benchDataset s false dur ds st).result_times = st.result_times := rfl

theorem benchDataset_total_false (r : Bool) (dur : List Int → String → List Int → Int)
    (ds : List Int) (st : HarnessState) :
    (benchDataset false r dur ds st).total_times = st.total_times := rfl

theorem benchDataset_results_true (s : Bool) (dur : List Int → String → List Int → Int)
    (ds : List Int) (st : HarnessState)
    (g : String × (List Int → List Int) → List Int)
    (hst : st.result_times = sort_algos.map (fun p => (p.1, g p))) :
    (benchDataset s true dur ds st).result_times =
      sort_algos.map (fun p => (p.1, g p ++ [dur ds p.1 (p.2 ds)])) := by
  simp only [sort_algos, List.map_cons, List.map_nil] at hst
  simp only [benchDataset, sort_algos, List.foldl_cons, List.foldl_nil]
  rw [hst]
  simp [setR]

theorem benchDataset_total_true_nil (r : Bool) (dur : List Int → String → List Int → Int)
    (ds : List Int) (st : HarnessState) (hst : st.total_times = []) :
    (benchDataset true r dur ds st).total_times =
      sort_algos.map (fun p => (p.1, dur ds p.1 (p.2 ds))) := by
  simp only [benchDataset, sort_algos, List.foldl_cons, List.foldl_nil]
  rw [hst]
  simp [setT, sort_algos]

theorem benchDataset_total_true_map (r : Bool) (dur : List Int → String → List Int → Int)
    (ds : List Int) (st : HarnessState)
    (h : String × (List Int → List Int) → Int)
    (hst : st.total_times = sort_algos.map (fun p => (p.1, h p))) :
    (benchDataset true r dur ds st).total_times =
      sort_algos.map (fun p => (p.1, h p + dur ds p.1 (p.2 ds))) := by
  simp only [sort_algos, List.map_cons, List.map_nil] at hst
  simp only [benchDataset, sort_algos, List.foldl_cons, List.foldl_nil]
  rw [hst]
  simp [setT]

theorem benchUpTo_results (s r : Bool) (dur : List Int → String → List Int → Int)
    (dss : List (List Int)) (i : Nat) :
    (benchUpTo s r dur dss i).result_times =
      if r then
        sort_algos.map (fun p =>
          (p.1, (List.range i).map
            (fun j => dur (dss.getD j []) p.1 (p.2 (dss.getD j [])))))
      else [] := by
  induction i with
  | zero =>
    cases r
    · rfl
    · simp [benchUpTo, initState]
  | succ n ih =>
    rw [benchUpTo_succ, benchUpTo_datasets]
    cases r
    · rw [benchDataset_results_false]
      rw [ih]
      simp
    · rw [if_pos rfl] at ih
      rw [benchDataset_results_true s dur (dss.getD n []) _ _ ih, if_pos rfl]
      simp [List.range_succ]

theorem benchUpTo_total (s r : Bool) (dur : List Int → String → List Int → Int)
    (dss : List (List Int)) (i : Nat) :
    (benchUpTo s r dur dss i).total_times =
      if s = true ∧ i ≠ 0 then
        sort_algos.map (fun p =>
          (p.1, ((List.range i).map
            (fun j => dur (dss.getD j []) p.1 (p.2 (dss.getD j [])))).sum))
      else [] := by
  induction i with
  | zero => simp [benchUpTo, initState]
  | succ n ih =>
    rw [benchUpTo_succ, benchUpTo_datasets]
    cases s
    · rw [benchDataset_total_false]
      rw [ih]
      simp
    · rw [if_pos (by simp)]
      cases hn : n with
      | zero =>
        have hnil : (benchUpTo true r dur dss 0).total_times = [] := by
          simp [benchUpTo, initState]
        rw [benchDataset_total_true_nil r dur (dss.getD 0 []) _ hnil]
        simp [List.range_succ]
      | succ m =>
        rw [hn] at ih
        rw [if_pos (by simp)] at ih
        rw [benchDataset_total_true_map r dur (dss.getD (m + 1) []) _ _ ih]
        simp [List.range_succ]
        intro a b hab
        exact add_assoc _ _ _

theorem mfind_map_some {γ α : Type} (L : List (String × γ)) (f : String × γ → α)
    (k : String) (w : α)
    (h : mfind (L.map (fun p => (p.1, f p))) k = some w) :
    ∃ p, p ∈ L ∧ p.1 = k ∧ w = f p := by
  induction L with
  | nil => simp [mfind] at h
  | cons q t ih =>
    rw [List.map_cons] at h
    simp only [mfind] at h
    split at h
    · rename_i heq
      rw [Option.some.injEq] at h
      exact ⟨q, List.mem_cons_self q t, heq, h.symm⟩
    · obtain ⟨p, hp, h1, h2⟩ := ih h
      exact ⟨p, List.mem_cons_of_mem q hp, h1, h2⟩

theorem mfind_map_self {γ α : Type} (L : List (String × γ)) (f : String × γ → α)
    (p : String × γ) (hnd : (L.map Prod.fst).Nodup) (hp : p ∈ L) :
    mfind (L.map (fun q => (q.1, f q))) p.1 = some (f p) := by
  induction L with
  | nil => cases hp
  | cons q t ih =>
    rw [List.map_cons] at hnd
    rw [List.nodup_cons] at hnd
    rcases List.mem_cons.mp hp with h | hmem
    · subst h
      simp [List.map_cons, mfind]
    · have hne : q.1 ≠ p.1 := by
        intro he
        apply hnd.1
        rw [he]
        exact List.mem_map_of_mem Prod.fst hmem
      simp only [List.map_cons, mfind, if_neg hne]
      exact ih hnd.2 hmem

theorem sort_algos_names_nodup : (sort_algos.map Prod.fst).Nodup := by decide

/-! ## Report rendering and the command-line dispatch (`main`, lines 28-162)

`std::sort(fast_to_slow.begin(), fast_to_slow.end(), compare_times)` is
modelled as an insertion sort under the same comparator (the rendering
claims checked here depend only on the multiset of entries and on the
length). A produced report is represented by the data it renders; `main`
itself is modelled as `sortcomparer_main`, its `return code` statements
by `MainResult.exit`. -/

def compare_times (p1 p2 : String × Int) : Bool := decide (p1.2 < p2.2)

def ftsInsert (p : String × Int) : List (String × Int) → List (String × Int)
  | [] => [p]
  | q :: rest => if compare_times p q then p :: q :: rest else q :: ftsInsert p rest

def fastToSlow (m : List (String × Int)) : List (String × Int) := m.foldr ftsInsert []

theorem length_ftsInsert (p : String × Int) (m : List (String × Int)) :
    (ftsInsert p m).length = m.length + 1 := by
  induction m with
  | nil => rfl
  | cons q rest ih =>
    rw [ftsInsert]
    split
    · simp
    · simp only [List.length_cons, ih]

theorem length_fastToSlow (m : List (String × Int)) :
    (fastToSlow m).length = m.length := by
  induction m with
  | nil => rfl
  | cons q rest ih =>
    show (ftsInsert q (fastToSlow rest)).length = rest.length + 1
    rw [length_ftsInsert, ih]

/-- One line of the RESULTS section per dataset: the algorithms ranked by
`result_times[name][i]`. -/
def resultsTable (rt : List (String × List Int)) (n : Nat) : List (List (String × Int)) :=
  (List.range n).map (fun i => fastToSlow (rt.map (fun p => (p.1, p.2.getD i 0))))

inductive Report
  | summary (ranking : List (String × Int)) (numDatasets : Nat)
  | results (table : List (List (String × Int)))

inductive MainResult
  | exit (code : Int) (msg : String)
  | success (reports : List Report)

def usage_msg : String := "USAGE: ./sortcomparer [results OR summary]"

def invalid_arg_msg : String :=
  "ERROR: Invalid program argument, try 'results' or 'summary'"

def summary_needed (args : List String) : Bool :=
  args.isEmpty || decide (args.getD 0 "" = "summary")

def results_needed (args : List String) : Bool :=
  args.isEmpty || decide (args.getD 0 "" = "results")

/-- `main`: `args` is `argv[1..]`, `lines` is standard input. -/
def sortcomparer_main (args : List String) (lines : List (List Char))
    (dur : List Int → String → List Int → Int) : MainResult :=
  if 1 < args.length then .exit (-1) usage_msg
  else if args.length = 1 ∧ args.getD 0 "" ≠ "results" ∧ args.getD 0 "" ≠ "summary" then
    .exit (-2) invalid_arg_msg
  else
    .success
      ((if summary_needed args then
          [Report.summary
            (fastToSlow (runBench (summary_needed args) (results_needed args) dur
              (read_in_datasets lines 1).1).total_times)
            (read_in_datasets lines 1).1.length]
        else []) ++
        (if results_needed args then
          [Report.results
            (resultsTable (runBench (summary_needed args) (results_needed args) dur
              (read_in_datasets lines 1).1).result_times
              (read_in_datasets lines 1).1.length)]
        else []))

theorem sort_algos_spec (p : String × (List Int → List Int)) (hp : p ∈ sort_algos)
    (v : List Int) : (p.2 v).Perm v ∧ (p.2 v).Sorted (· ≤ ·) := by
  simp only [sort_algos, List.mem_cons, List.not_mem_nil, or_false] at hp
  rcases hp with rfl | rfl | rfl | rfl | rfl | rfl | rfl
  · exact ⟨insertion_sort_perm v, insertion_sort_sorted v⟩
  · exact ⟨selection_sort_perm v, selection_sort_sorted v⟩
  · exact ⟨bubble_sort_perm v, bubble_sort_sorted v⟩
  · exact ⟨heap_sort_perm v, heap_sort_sorted v⟩
  · exact ⟨merge_sort_perm v, merge_sort_sorted v⟩
  · exact ⟨quick_sort_perm v, quick_sort_sorted v⟩
  · exact ⟨shell_sort_perm v, shell_sort_sorted v⟩

/-- Claim C1: every one of the seven registered sorting algorithms, invoked on
a copy of any finite integer sequence (including the empty and one-element
sequences), returns a list that is a permutation of the input and is sorted in
non-decreasing order. -/
theorem c1 : ∀ (v : List Int),
    (∀ p, p ∈ sort_algos → (p.2 v).Perm v ∧ (p.2 v).Sorted (· ≤ ·)) ∧
    sort_algos.length = 7 := by
  intro v
  exact ⟨fun p hp => sort_algos_spec p hp v, rfl⟩

/-- Claim C3: the harness state's dataset list is unchanged at every point of
the benchmarking loop, and each registered algorithm only builds a fresh
permutation of the copy it is given. -/
theorem c3 : ∀ (s r : Bool) (dur : List Int → String → List Int → Int)
    (dss : List (List Int)) (i : Nat) (v : List Int),
    (benchUpTo s r dur dss i).datasets = dss ∧
    (runBench s r dur dss).datasets = dss ∧
    (∀ p, p ∈ sort_algos → (p.2 v).Perm v) := by
  intro s r dur dss i v
  exact ⟨benchUpTo_datasets s r dur dss i, benchUpTo_datasets s r dur dss dss.length,
    fun p hp => (sort_algos_spec p hp v).1⟩

/-- Claim C9: all seven sorting functions are total: they are defined (with
length preserved) on every finite integer sequence, the recursive
`merge_sort_sublist` and `quick_sort_sublist` return at once when called with
end index -1 (the empty vector's size-1), and every algorithm is the identity
on empty and one-element inputs. -/
theorem c9 : ∀ (v : List Int) (x : Int),
    (∀ p, p ∈ sort_algos → (p.2 v).length = v.length) ∧
    merge_sort_sublist [] 0 (0 - 1) = [] ∧
    quick_sort_sublist [] 0 (0 - 1) = [] ∧
    merge_sort [] = [] ∧
    quick_sort [] = [] ∧
    (∀ p, p ∈ sort_algos → p.2 [] = [] ∧ p.2 [x] = [x]) := by
  intro v x
  have hm : merge_sort_sublist [] 0 (0 - 1) = [] := by
    rw [merge_sort_sublist, dif_neg (by decide)]
  have hq : quick_sort_sublist [] 0 (0 - 1) = [] := by
    rw [quick_sort_sublist, dif_neg (by decide)]
  refine ⟨?_, hm, hq, hm, hq, ?_⟩
  · intro p hp
    exact ((sort_algos_spec p hp v).1).length_eq
  · intro p hp
    constructor
    · exact List.Perm.eq_nil ((sort_algos_spec p hp []).1)
    · exact List.perm_singleton.mp ((sort_algos_spec p hp [x]).1)

/-- Claim C5: `read_in_datasets` turns exactly the lines before end-of-input or
the first empty line into datasets, one per line in input order; with two
dataset lines followed by an empty line and further input, exactly 2 datasets
are returned. -/
theorem c5 : ∀ (lines : List (List Char)) (lc : Nat),
    ((read_in_datasets lines lc).1 =
      (lines.takeWhile (fun l => !l.isEmpty)).map (fun l => (parseLineLoop l 1).1)) ∧
    (read_in_datasets [['1'], ['2'], [], ['3']] 1).1.length = 2 := by
  intro lines lc
  refine ⟨read_in_datasets_fst lines lc, ?_⟩
  rw [read_in_datasets_fst]
  rfl

theorem parseLineLoop_5 : parseLineLoop ['5'] 1 = ([5], []) := by
  rw [parseLineLoop_ok ['5'] 1 5 [] rfl]
  rw [parseLineLoop_eof [] 2 rfl]

/-- Claim C10: a line of only whitespace (such as " ") is treated as a
non-empty line: it contributes an empty dataset, emits no diagnostic, and
reading continues with the following lines. -/
theorem c10 : ∀ (line : List Char) (rest : List (List Char)) (lc : Nat),
    (line ≠ [] → line.all isWsChar = true →
      read_in_datasets (line :: rest) lc =
        ([] :: (read_in_datasets rest (lc + 1)).1,
          (read_in_datasets rest (lc + 1)).2)) ∧
    read_in_datasets [[' '], ['5']] 1 = ([[], [5]], []) := by
  intro line rest lc
  refine ⟨read_in_datasets_ws_line line rest lc, ?_⟩
  have h5 : read_in_datasets [['5']] (1 + 1) = ([[5]], []) := by
    simp only [read_in_datasets]
    rw [if_neg (by simp), parseLineLoop_5]
    simp
  rw [read_in_datasets_ws_line [' '] [['5']] 1 (by simp) rfl, h5]

/-- Claim C4 (amended): one line is parsed by repeated stream extraction, not
by whitespace tokenization. A successful extraction appends its value in
order. A failed attempt that stops strictly inside the line (`failBad`) is
reported with the 1-based attempt position, after which recovery discards
characters from the current point up to the next whitespace — for a bare
sign this consumes the following token. A failed attempt whose consumption
reached the end of the line (`failEof`: a trailing bare sign, an
out-of-int-range digit run ending the line, or whitespace to the end) ends
the line silently, with no diagnostic. The input "1 2 x 3" yields the
dataset [1, 2, 3] with exactly the diagnostic (line 1, position 3); "1 -"
yields [1] with no diagnostic; a lone out-of-range digit run yields an empty
dataset with no diagnostic; "- 5" yields an empty dataset and one diagnostic
at position 1, the recovery having consumed the "5". -/
theorem c4 : ∀ (cs : List Char) (pos : Nat),
    (∀ val rest, extractInt cs = .ok val rest →
      parseLineLoop cs pos =
        (val :: (parseLineLoop rest (pos + 1)).1, (parseLineLoop rest (pos + 1)).2)) ∧
    (∀ rest, extractInt cs = .failBad rest →
      parseLineLoop cs pos =
        ((parseLineLoop ((rest.dropWhile isWsChar).dropWhile (fun c => !isWsChar c))
            (pos + 1)).1,
          pos :: (parseLineLoop ((rest.dropWhile isWsChar).dropWhile
            (fun c => !isWsChar c)) (pos + 1)).2)) ∧
    (extractInt cs = .failEof → parseLineLoop cs pos = ([], [])) ∧
    read_in_datasets [['1', ' ', '2', ' ', 'x', ' ', '3']] 1 = ([[1, 2, 3]], [(1, 3)]) ∧
    read_in_datasets [['1', ' ', '-']] 1 = ([[1]], []) ∧
    read_in_datasets [['9', '9', '9', '9', '9', '9', '9', '9', '9', '9']] 1 =
      ([[]], []) ∧
    read_in_datasets [['-', ' ', '5']] 1 = ([[]], [(1, 1)]) := by
  intro cs pos
  exact ⟨fun val rest h => parseLineLoop_ok cs pos val rest h,
    fun rest h => parseLineLoop_bad cs pos rest _ h rfl,
    fun h => parseLineLoop_eof cs pos h,
    read_in_datasets_line1, read_in_datasets_trailing_sign,
    read_in_datasets_out_of_range, read_in_datasets_sign_recovery⟩

/-- Claim C4 counterexample: the spec's whitespace-token reading of line "2x"
(one token, unparseable, dataset [] and position 1) disagrees with the code,
whose stream extraction parses the prefix "2" and then fails at "x" (dataset
[2], reported position 2). -/
theorem c4_counterexample :
    parseLineLoop ['2', 'x'] 1 = ([2], [2]) ∧
    specLineModel ['2', 'x'] = ([], [1]) ∧
    (parseLineLoop ['2', 'x'] 1).1 ≠ (specLineModel ['2', 'x']).1 := by
  refine ⟨parseLineLoop_2x, rfl, ?_⟩
  rw [parseLineLoop_2x, specLineModel_2x]
  simp

/-- Claim C2: REFUTED for the code as written. With zero datasets and a
summary requested, `total_times` stays empty, so the ranking `fast_to_slow`
is empty, yet the summary loop runs `num_algos` = 7 iterations indexing it:
the loop's index range is not within the ranking's bounds. -/
theorem c2 : ∀ (r : Bool) (dur : List Int → String → List Int → Int),
    (runBench true r dur []).total_times = [] ∧
    fastToSlow (runBench true r dur []).total_times = [] ∧
    sort_algos.length = 7 ∧
    ¬ (∀ j : Nat, j < sort_algos.length →
        j < (fastToSlow (runBench true r dur []).total_times).length) := by
  intro r dur
  have h0 : (runBench true r dur []).total_times = [] := rfl
  refine ⟨h0, by rw [h0]; rfl, rfl, ?_⟩
  rw [h0]
  intro hall
  have h1 := hall 0 (by decide)
  simp [fastToSlow] at h1

/-- Claim C6: the command-line contract. More than one argument exits with -1
and the usage message; a single unrecognized argument exits with -2 and the
invalid-argument message (both without involving the input lines); zero
arguments produce both reports, summary first; "summary" or "results" alone
produce only that report; the two error codes are non-zero and distinct. -/
theorem c6 : ∀ (args : List String) (lines : List (List Char))
    (dur : List Int → String → List Int → Int),
    (1 < args.length → sortcomparer_main args lines dur = .exit (-1) usage_msg) ∧
    (∀ a, args = [a] → a ≠ "results" → a ≠ "summary" →
      sortcomparer_main args lines dur = .exit (-2) invalid_arg_msg) ∧
    (args = [] → ∃ rk n tb, sortcomparer_main args lines dur =
      .success [Report.summary rk n, Report.results tb]) ∧
    (args = ["summary"] → ∃ rk n, sortcomparer_main args lines dur =
      .success [Report.summary rk n]) ∧
    (args = ["results"] → ∃ tb, sortcomparer_main args lines dur =
      .success [Report.results tb]) ∧
    ((-1 : Int) ≠ 0 ∧ (-2 : Int) ≠ 0 ∧ (-1 : Int) ≠ -2) := by
  intro args lines dur
  refine ⟨?_, ?_, ?_, ?_, ?_, by decide, by decide, by decide⟩
  · intro h
    rw [sortcomparer_main, if_pos h]
  · intro a ha h1 h2
    subst ha
    rw [sortcomparer_main, if_neg (by simp), if_pos ⟨rfl, h1, h2⟩]
  · intro ha
    subst ha
    refine ⟨fastToSlow (runBench (summary_needed []) (results_needed []) dur
        (read_in_datasets lines 1).1).total_times,
      (read_in_datasets lines 1).1.length,
      resultsTable (runBench (summary_needed []) (results_needed []) dur
        (read_in_datasets lines 1).1).result_times
        (read_in_datasets lines 1).1.length, ?_⟩
    rw [sortcomparer_main, if_neg (by simp), if_neg (by simp)]
    rfl
  · intro ha
    subst ha
    refine ⟨fastToSlow (runBench (summary_needed ["summary"]) (results_needed ["summary"])
        dur (read_in_datasets lines 1).1).total_times,
      (read_in_datasets lines 1).1.length, ?_⟩
    rw [sortcomparer_main, if_neg (by simp), if_neg (by simp)]
    rfl
  · intro ha
    subst ha
    refine ⟨resultsTable (runBench (summary_needed ["results"]) (results_needed ["results"])
        dur (read_in_datasets lines 1).1).result_times
        (read_in_datasets lines 1).1.length, ?_⟩
    rw [sortcomparer_main, if_neg (by simp), if_neg (by simp)]
    rfl

/-- Claim C7: at every point of the benchmarking loop, every duration list in
`result_times` has length equal to the number of datasets processed so far,
every total in `total_times` equals the sum of the durations recorded for
that algorithm so far, and one more iteration is exactly one
`benchDataset` step. -/
theorem c7 : ∀ (s r : Bool) (dur : List Int → String → List Int → Int)
    (dss : List (List Int)) (i : Nat),
    (∀ name l, mfind (benchUpTo s r dur dss i).result_times name = some l →
      l.length = i) ∧
    (∀ p, p ∈ sort_algos → ∀ t,
      mfind (benchUpTo s r dur dss i).total_times p.1 = some t →
      t = ((List.range i).map
        (fun j => dur (dss.getD j []) p.1 (p.2 (dss.getD j [])))).sum) ∧
    benchUpTo s r dur dss (i + 1) =
      benchDataset s r dur ((benchUpTo s r dur dss i).datasets.getD i [])
        (benchUpTo s r dur dss i) := by
  intro s r dur dss i
  refine ⟨?_, ?_, benchUpTo_succ s r dur dss i⟩
  · intro name l hl
    rw [benchUpTo_results] at hl
    cases r
    · simp [mfind] at hl
    · rw [if_pos rfl] at hl
      obtain ⟨p, hp, hname, hlval⟩ := mfind_map_some sort_algos _ name l hl
      rw [hlval]
      simp
  · intro p hp t ht
    rw [benchUpTo_total] at ht
    split at ht
    · have hself := mfind_map_self sort_algos
        (fun q => ((List.range i).map
          (fun j => dur (dss.getD j []) q.1 (q.2 (dss.getD j [])))).sum)
        p sort_algos_names_nodup hp
      rw [hself, Option.some.injEq] at ht
      exact ht.symm
    · simp [mfind] at ht

/-- Claim C8: with 0 ≤ start ≤ end < length v, `partition_sublist` returns an
index p in [start, end] with the original last element as pivot value at p,
everything left of p at most the pivot, everything right of p greater, the
[start, end] slice permuted in place and the rest untouched; `quick_sort_sublist`
recurses on [start, p-1] and [p+1, end], excluding p. -/
theorem c8 (v : List Int) (start iEnd : Int) (h0 : 0 ≤ start) (hse : start ≤ iEnd)
    (hlen : iEnd < v.length) :
    (partition_sublist v start iEnd).1.length = v.length ∧
    (start ≤ (partition_sublist v start iEnd).2 ∧
      (partition_sublist v start iEnd).2 ≤ iEnd) ∧
    vget (partition_sublist v start iEnd).1 (partition_sublist v start iEnd).2 =
      vget v iEnd ∧
    (∀ m : Int, start ≤ m → m < (partition_sublist v start iEnd).2 →
      vget (partition_sublist v start iEnd).1 m ≤
        vget (partition_sublist v start iEnd).1 (partition_sublist v start iEnd).2) ∧
    (∀ m : Int, (partition_sublist v start iEnd).2 < m → m ≤ iEnd →
      vget (partition_sublist v start iEnd).1 (partition_sublist v start iEnd).2 <
        vget (partition_sublist v start iEnd).1 m) ∧
    (vslice (partition_sublist v start iEnd).1 start iEnd).Perm
      (vslice v start iEnd) ∧
    (∀ m : Int, 0 ≤ m → (m < start ∨ iEnd < m) →
      vget (partition_sublist v start iEnd).1 m = vget v m) ∧
    (start < iEnd → quick_sort_sublist v start iEnd =
      quick_sort_sublist
        (quick_sort_sublist (partition_sublist v start iEnd).1 start
          ((partition_sublist v start iEnd).2 - 1))
        ((partition_sublist v start iEnd).2 + 1) iEnd) := by
  obtain ⟨L, P, ⟨B1, B2⟩, Piv, PL, PG, S, F⟩ :=
    partition_sublist_spec v start iEnd h0 hse hlen
  refine ⟨L, ⟨B1, B2⟩, Piv, ?_, ?_, S, F, ?_⟩
  · intro m h1 h2
    rw [Piv]
    exact PL m h1 h2
  · intro m h1 h2
    rw [Piv]
    exact PG m h1 h2
  · intro hlt
    rw [quick_sort_sublist, dif_pos hlt]

/-- Witness for C8 at v = [3, 1, 2], start = 0, end = 2. -/
theorem c8_witness :
    ((0 : Int) ≤ 0 ∧ (0 : Int) ≤ 2 ∧ (2 : Int) < (([3, 1, 2] : List Int).length : Int)) ∧
    ((partition_sublist [3, 1, 2] 0 2).1.length = ([3, 1, 2] : List Int).length ∧
      ((0 : Int) ≤ (partition_sublist [3, 1, 2] 0 2).2 ∧
        (partition_sublist [3, 1, 2] 0 2).2 ≤ 2) ∧
      vget (partition_sublist [3, 1, 2] 0 2).1 (partition_sublist [3, 1, 2] 0 2).2 =
        vget [3, 1, 2] 2 ∧
      (∀ m : Int, 0 ≤ m → m < (partition_sublist [3, 1, 2] 0 2).2 →
        vget (partition_sublist [3, 1, 2] 0 2).1 m ≤
          vget (partition_sublist [3, 1, 2] 0 2).1 (partition_sublist [3, 1, 2] 0 2).2) ∧
      (∀ m : Int, (partition_sublist [3, 1, 2] 0 2).2 < m → m ≤ 2 →
        vget (partition_sublist [3, 1, 2] 0 2).1 (partition_sublist [3, 1, 2] 0 2).2 <
          vget (partition_sublist [3, 1, 2] 0 2).1 m) ∧
      (vslice (partition_sublist [3, 1, 2] 0 2).1 0 2).Perm (vslice [3, 1, 2] 0 2) ∧
      (∀ m : Int, 0 ≤ m → (m < 0 ∨ 2 < m) →
        vget (partition_sublist [3, 1, 2] 0 2).1 m = vget [3, 1, 2] m) ∧
      ((0 : Int) < 2 → quick_sort_sublist [3, 1, 2] 0 2 =
        quick_sort_sublist
          (quick_sort_sublist (partition_sublist [3, 1, 2] 0 2).1 0
            ((partition_sublist [3, 1, 2] 0 2).2 - 1))
          ((partition_sublist [3, 1, 2] 0 2).2 + 1) 2)) :=
  ⟨⟨by decide, by decide, by decide⟩,
    c8 [3, 1, 2] 0 2 (by decide) (by decide) (by decide)⟩
